import Mathlib

/-!
# GraphAgentAutomated — verification of spec claims

A shallow embedding, in Lean 4, of the components of the
`graph_agent_automated` service that the specification's testable
properties talk about, together with proofs (or refutations) of those
properties.

Conventions used throughout:

* Python `float` scores, objectives and timestamps are modelled as `ℚ`
  (the verified claims only use ordering, `max`/`min` and exact decimal
  constants, where rationals agree with IEEE doubles on the inputs
  involved; whenever an `int(x * ratio)` truncation matters we verified
  the exact CPython double results and encode them directly).
* Python string operations are modelled by structural functions on the
  underlying character lists, so that every definition evaluates inside
  the kernel.
* Sources of nondeterminism that are external to the verified component
  (the PRNG stream of `random.Random`, the evaluator/judge results seen
  by the search engine, the external chat2graph executor, the monotonic
  clock) are abstracted as oracle parameters; theorems quantify over
  every oracle, and counterexamples pick a concrete one.
* Fallible Python code (raising `ValueError` / `FileNotFoundError`)
  returns `Except String _`.
-/

namespace GraphAgent

/-! ## Shared string helpers (Python `str` methods) -/

/-- Python `str.lower` (ASCII case folding suffices for the inputs the
repository handles). -/
def pyLower (s : String) : String := ⟨s.data.map Char.toLower⟩

/-- Drop leading and trailing whitespace from a character list. -/
def stripChars (l : List Char) : List Char :=
  ((l.dropWhile Char.isWhitespace).reverse.dropWhile Char.isWhitespace).reverse

/-- Python `str.strip()` with no argument. -/
def pyStrip (s : String) : String := ⟨stripChars s.data⟩

/-- Python `s.strip().lower()`, the normalization both judges apply. -/
def pyStripLower (s : String) : String := pyLower (pyStrip s)

/-- Accumulator-style whitespace splitter: `cur` holds the (reversed)
current token. -/
def splitWsAux : List Char → List Char → List (List Char)
  | [], cur => if cur = [] then [] else [cur.reverse]
  | c :: rest, cur =>
      if c.isWhitespace then
        if cur = [] then splitWsAux rest []
        else cur.reverse :: splitWsAux rest []
      else splitWsAux rest (c :: cur)

/-- Python `str.split()` with no argument: split on whitespace runs,
dropping empty pieces. -/
def pyTokens (s : String) : List String :=
  (splitWsAux s.data []).map String.mk

/-- Python substring containment `pat in text`. -/
def occursIn (pat : List Char) : List Char → Bool
  | [] => pat.isEmpty
  | c :: rest => pat.isPrefixOf (c :: rest) || occursIn pat rest

/-- Decidable equality for `Except`, used to evaluate fallible results
on concrete inputs. -/
instance exceptDecEq {ε α : Type} [DecidableEq ε] [DecidableEq α] :
    DecidableEq (Except ε α) := fun x y =>
  match x, y with
  | Except.ok a, Except.ok b =>
      match decEq a b with
      | isTrue h => isTrue (by rw [h])
      | isFalse h => isFalse (fun hc => h (by injection hc))
  | Except.error a, Except.error b =>
      match decEq a b with
      | isTrue h => isTrue (by rw [h])
      | isFalse h => isFalse (fun hc => h (by injection hc))
  | Except.ok _, Except.error _ => isFalse (fun hc => Except.noConfusion hc)
  | Except.error _, Except.ok _ => isFalse (fun hc => Except.noConfusion hc)

/-! ## Judges (`infrastructure/evaluation/judges.py`) -/

namespace RuleBasedJudge

/-- `RuleBasedJudge.judge`.  Scores are the exact decimal constants of the
source (`0.95`, `0.75`, `0.2`, `0.65`, `0.3`, `0.55`) as rationals. -/
def judge (question expected prediction rubric : String) : ℚ × String :=
  if pyStripLower prediction = "" then (0, "empty output")
  else if pyStripLower expected ≠ "" ∧ pyStripLower expected ≠ "unknown" then
    if occursIn (pyStripLower expected).data (pyStripLower prediction).data then
      (19/20, "expected answer included")
    else if occursIn (pyStripLower prediction).data (pyStripLower expected).data then
      (3/4, "prediction is partial expected answer")
    else (1/5, "expected answer not supported")
  else if occursIn "unknown".data (pyStripLower prediction).data then
    (13/20, "uncertainty explicitly stated")
  else if (pyTokens (pyStripLower prediction)).length < 4 then
    (3/10, "insufficient answer detail")
  else (11/20, "rule-based plausibility")

end RuleBasedJudge

namespace HeuristicJudge

/-- `HeuristicJudge._overlap`: fraction of `lhs` whitespace tokens
(`lhs_tokens`) that also occur among the `rhs` tokens (token sets, not
multisets). -/
def overlap (lhs rhs : String) : ℚ :=
  if (pyTokens lhs).toFinset = ∅ then 0
  else (((pyTokens lhs).toFinset ∩ (pyTokens rhs).toFinset).card : ℚ) /
    (pyTokens lhs).toFinset.card

/-- `HeuristicJudge.judge`.  The 2-decimal numeric formatting inside the
source's `token overlap` rationale string is elided; the claims only
concern scores. -/
def judge (question expected prediction rubric : String) : ℚ × String :=
  if pyStripLower prediction = "" then (0, "empty prediction")
  else if pyStripLower expected ≠ "" ∧ pyStripLower expected ≠ "unknown" then
    if pyStripLower expected = pyStripLower prediction then (1, "exact match")
    else (overlap (pyStripLower expected) (pyStripLower prediction), "token overlap")
  else
    (max (1/10) (min (4/5) (overlap (pyLower question) (pyStripLower prediction))),
      "weak-supervision overlap")

end HeuristicJudge

/-! ## Idempotency store (`infrastructure/runtime/idempotency_store.py`) -/

namespace Idem

inductive Status where
  | inProgressStatus : Status
  | completedStatus : Status
deriving DecidableEq, Repr

/-- One idempotency record; the `created_at` / `updated_at` wall-clock
strings are irrelevant to the claims and elided. -/
structure Rec (ρ : Type) where
  status : Status
  response : Option ρ
deriving DecidableEq, Repr

/-- The in-memory store: an association list keyed by the record key. -/
abbrev Store (ρ : Type) := List (String × Rec ρ)

def buildRecordKey (scope key : String) : String :=
  scope ++ "::" ++ key

inductive BeginOutcome (ρ : Type) where
  | started : BeginOutcome ρ
  | conflict : BeginOutcome ρ
  | replay : ρ → BeginOutcome ρ
deriving DecidableEq, Repr

/-- `InMemoryIdempotencyStore.begin`. -/
def begin (st : Store ρ) (scope key : String) : BeginOutcome ρ × Store ρ :=
  match List.lookup (buildRecordKey scope key) st with
  | none =>
      (BeginOutcome.started,
        (buildRecordKey scope key, ⟨Status.inProgressStatus, none⟩) :: st)
  | some record =>
      match record.status, record.response with
      | Status.completedStatus, some resp => (BeginOutcome.replay resp, st)
      | _, _ => (BeginOutcome.conflict, st)

/-- `InMemoryIdempotencyStore.complete`: upsert a completed record. -/
def complete (st : Store ρ) (scope key : String) (response : ρ) : Store ρ :=
  (buildRecordKey scope key, ⟨Status.completedStatus, some response⟩)
    :: st.filter (fun kv => kv.1 ≠ buildRecordKey scope key)

/-- `InMemoryIdempotencyStore.discard`: drop an `in_progress` record. -/
def discard (st : Store ρ) (scope key : String) : Store ρ :=
  match List.lookup (buildRecordKey scope key) st with
  | some record =>
      if record.status = Status.inProgressStatus then
        st.filter (fun kv => kv.1 ≠ buildRecordKey scope key)
      else st
  | none => st

end Idem

/-! ## External runtime circuit breaker
(`infrastructure/runtime/chat2graph_sdk_runtime.py`) -/

namespace Chat2GraphRuntime

/-- The settings the adapter reads (`sdk_runtime_max_retries`,
`sdk_runtime_circuit_failure_threshold`, `sdk_runtime_circuit_reset_seconds`).
The backoff delay only sleeps and is irrelevant to the modelled outputs. -/
structure RtSettings where
  maxRetries : ℕ
  threshold : ℕ
  resetSeconds : ℚ

/-- Adapter mutable state: `_consecutive_failures` and `_circuit_open_until`. -/
structure BreakerState where
  consecutiveFailures : ℕ
  circuitOpenUntil : ℚ
deriving DecidableEq, Repr

/-- Outcome of one `_execute_once_with_timeout` attempt, as seen by
`execute_case`'s `try`: a payload, a timeout, or any other exception. -/
inductive AttemptOutcome where
  | ok : String → AttemptOutcome
  | timeoutErr : String → AttemptOutcome
  | execErr : String → AttemptOutcome
deriving DecidableEq, Repr

def AttemptOutcome.isSuccess : AttemptOutcome → Bool
  | AttemptOutcome.ok _ => true
  | _ => false

/-- Result of the modelled `execute_case`: the `CaseExecution.output`
text, the new breaker state, and how many underlying executor attempts
were actually invoked. -/
structure ExecOutcome where
  output : String
  state : BreakerState
  executorCalls : ℕ
deriving DecidableEq, Repr

def runtimeErrorText (category detail : String) : String :=
  "RUNTIME_ERROR[" ++ category ++ "]: " ++ detail

/-- `_record_failure`, evaluated at clock value `failTime`. -/
def recordFailure (s : RtSettings) (st : BreakerState) (failTime : ℚ) :
    BreakerState :=
  if s.threshold ≤ st.consecutiveFailures + 1 then
    ⟨st.consecutiveFailures + 1, failTime + s.resetSeconds⟩
  else
    ⟨st.consecutiveFailures + 1, st.circuitOpenUntil⟩

/-- Bookkeeping of one more invoked attempt. -/
def bumpCalls (r : Option String × String × String × ℕ) :
    Option String × String × String × ℕ :=
  (r.1, r.2.1, r.2.2.1, r.2.2.2 + 1)

/-- The retry loop of `execute_case` (`for attempt in range(1, max_attempts+1)`)
over the outcomes of the successive attempts.  Returns
`(payload?, lastCategory, lastDetail, attemptsMade)`. -/
def tryList : List AttemptOutcome → (lastCategory lastDetail : String) →
    Option String × String × String × ℕ
  | [], lastCategory, lastDetail => (none, lastCategory, lastDetail, 0)
  | o :: rest, _, _ =>
      match o with
      | AttemptOutcome.ok out => (some out, "", "", 1)
      | AttemptOutcome.timeoutErr msg => bumpCalls (tryList rest "TIMEOUT" msg)
      | AttemptOutcome.execErr msg => bumpCalls (tryList rest "EXECUTION_ERROR" msg)

/-- The outcomes the oracle provides for attempts `1 .. maxRetries+1` of
one `execute_case` call. -/
def attemptWindow (attempts : ℕ → AttemptOutcome) (maxRetries : ℕ) :
    List AttemptOutcome :=
  (List.range' 1 (maxRetries + 1)).map attempts

/-- `Chat2GraphSDKRuntimeAdapter.execute_case`, with the monotonic clock
abstracted: `now` is the value checked against `_circuit_open_until`, and
`failTime` the (later) clock value read inside `_record_failure`; the
executor is abstracted as the oracle `attempts` giving the outcome of
each numbered attempt.  Materialisation of the workflow YAML and the
latency/cost bookkeeping of the returned `CaseExecution` are elided;
`output` is the field the claims are about. -/
def executeCase (s : RtSettings) (st : BreakerState) (now failTime : ℚ)
    (attempts : ℕ → AttemptOutcome) : ExecOutcome :=
  if now < st.circuitOpenUntil then
    { output := runtimeErrorText "CIRCUIT_OPEN" "chat2graph circuit open"
      state := st
      executorCalls := 0 }
  else
    match tryList (attemptWindow attempts s.maxRetries) "EXECUTION_ERROR"
        "unknown runtime failure" with
    | (some out, _, _, n) =>
        { output := out, state := ⟨0, 0⟩, executorCalls := n }
    | (none, category, detail, n) =>
        { output := runtimeErrorText category detail
          state := recordFailure s st failTime
          executorCalls := n }

end Chat2GraphRuntime

/-! ## Agent/version repository (`infrastructure/persistence/repositories.py`)

The relational rows are modelled as a list of version rows; SQLAlchemy
sessions and flushes are elided (the claims are about the data produced,
all within one transaction). -/

namespace Repo

inductive AgentLifecycle where
  | draft : AgentLifecycle
  | validated : AgentLifecycle
  | deployed : AgentLifecycle
  | archived : AgentLifecycle
deriving DecidableEq, Repr

/-- One `agent_versions` row (the claim-relevant columns). -/
structure VersionRow where
  agent : String
  version : ℕ
  lifecycle : AgentLifecycle
deriving DecidableEq, Repr

abbrev RepoState := List VersionRow

/-- `AgentRepository.next_version`: 1 + the maximum existing version of
the agent (1 when none exists). -/
def next_version (st : RepoState) (agent : String) : ℕ :=
  ((st.filter (fun r => r.agent == agent)).map (fun r => r.version)).foldr max 0 + 1

/-- `AgentRepository.create_version` (only the version/lifecycle columns;
the blueprint payload, score and evaluation-case child rows do not affect
the claims). -/
def create_version (st : RepoState) (agent : String)
    (lifecycle : AgentLifecycle) : RepoState :=
  st ++ [⟨agent, next_version st agent, lifecycle⟩]

/-- Row update performed by `update_lifecycle`: the target row gets the
new lifecycle; when the new lifecycle is DEPLOYED, every other DEPLOYED
row of the same agent is demoted to VALIDATED; other rows are kept. -/
def lifecycleMapFun (agent : String) (version : ℕ)
    (lifecycle : AgentLifecycle) (r : VersionRow) : VersionRow :=
  if r.agent == agent && r.version == version then
    { r with lifecycle := lifecycle }
  else if lifecycle == AgentLifecycle.deployed && r.agent == agent
      && r.lifecycle == AgentLifecycle.deployed then
    { r with lifecycle := AgentLifecycle.validated }
  else r

/-- `AgentRepository.update_lifecycle`: set the target row's lifecycle;
when promoting to DEPLOYED, demote every other DEPLOYED version of the
same agent to VALIDATED.  Raises (`Except.error`) when the version does
not exist, as `get_version` does. -/
def update_lifecycle (st : RepoState) (agent : String) (version : ℕ)
    (lifecycle : AgentLifecycle) : Except String RepoState :=
  if st.filter (fun r => r.agent == agent && r.version == version) = [] then
    Except.error "Agent version not found"
  else
    Except.ok (st.map (lifecycleMapFun agent version lifecycle))

/-- A sequence of repository operations, as in the claim. -/
inductive RepoOp where
  | createOp : String → AgentLifecycle → RepoOp
  | updateOp : String → ℕ → AgentLifecycle → RepoOp
deriving DecidableEq, Repr

def applyOp (st : RepoState) : RepoOp → Except String RepoState
  | RepoOp.createOp agent lifecycle => Except.ok (create_version st agent lifecycle)
  | RepoOp.updateOp agent version lifecycle => update_lifecycle st agent version lifecycle

def runOps : RepoState → List RepoOp → Except String RepoState
  | st, [] => Except.ok st
  | st, op :: ops =>
      match applyOp st op with
      | Except.ok st' => runOps st' ops
      | Except.error e => Except.error e

/-- The DEPLOYED rows of one agent. -/
def deployedOf (st : RepoState) (agent : String) : List VersionRow :=
  st.filter (fun r => r.agent == agent && r.lifecycle == AgentLifecycle.deployed)

/-- The invariant of the claim: at most one DEPLOYED version per agent. -/
def AtMostOneDeployed (st : RepoState) : Prop :=
  ∀ agent : String, (deployedOf st agent).length ≤ 1

/-- Well-formedness maintained by the repository: per-agent version
numbers are distinct (guaranteed by `next_version`). -/
def VersionsDistinct (st : RepoState) : Prop :=
  st.Pairwise (fun r r' => r.agent = r'.agent → r.version ≠ r'.version)

/-- `create_version` calls in a sequence that never directly create a
DEPLOYED row (every caller in the repository uses the default VALIDATED
or DRAFT). -/
def createsNonDeployed : RepoOp → Prop
  | RepoOp.createOp _ lifecycle => lifecycle ≠ AgentLifecycle.deployed
  | RepoOp.updateOp _ _ _ => True

end Repo

/-! ## Search engine loop
(`infrastructure/optimization/search_engine.py`, `AFlowXSearchEngine.optimize`)

The engine's evaluator, judges, mutation operators and UCB selection are
external to the claims about best-objective bookkeeping and loop
termination: every run of `optimize` determines, for each round and
expansion, a candidate train objective (`child_train_objective`) and a
candidate model-selection objective (`child_val_objective`).  We
abstract these as an oracle `env : ℕ → ℕ → ℚ × ℚ` (round index,
expansion index); the state updates below mirror lines 116–210 of the
source. -/

namespace SearchEngine

/-- The claim-relevant knobs of `SearchConfig` read by the loop. -/
structure SearchConfig where
  rounds : ℕ
  expansions_per_round : ℕ
  patience : ℕ
  min_improvement : ℚ

/-- The numeric columns of one `SearchRoundTrace` row that the claims
quantify over (identifier/mutation strings elided). -/
structure RoundTraceRow where
  train_objective : ℚ
  val_objective : ℚ
  best_train_objective : ℚ
  best_val_objective : ℚ
  regret : ℚ
deriving DecidableEq, Repr

/-- Loop state: the running bests, the no-improvement streak counter,
the appended trace rows, and the per-round `best_val` improvements. -/
structure EngineState where
  bestTrain : ℚ
  bestVal : ℚ
  noImprove : ℕ
  traces : List RoundTraceRow
  roundImps : List ℚ
deriving DecidableEq, Repr

/-- One expansion (source lines 123–201): update the bests with strict
`>` comparisons and append a trace row recording them. -/
def processExpansion (st : EngineState) (cand : ℚ × ℚ) : EngineState :=
  { st with
    bestTrain := if cand.1 > st.bestTrain then cand.1 else st.bestTrain
    bestVal := if cand.2 > st.bestVal then cand.2 else st.bestVal
    traces := st.traces ++
      [{ train_objective := cand.1
         val_objective := cand.2
         best_train_objective := if cand.1 > st.bestTrain then cand.1 else st.bestTrain
         best_val_objective := if cand.2 > st.bestVal then cand.2 else st.bestVal
         regret := max 0 ((if cand.2 > st.bestVal then cand.2 else st.bestVal) - cand.2) }] }

/-- One round: run the expansions, then update the no-improvement streak
from the round-level increase of `best_val_objective`. -/
def processRound (cfg : SearchConfig) (env : ℕ → ℕ → ℚ × ℚ) (roundIdx : ℕ)
    (st : EngineState) : EngineState :=
  let st' := (List.range cfg.expansions_per_round).foldl
    (fun s e => processExpansion s (env roundIdx e)) st
  let roundImprovement := st'.bestVal - st.bestVal
  { st' with
    noImprove := if roundImprovement < cfg.min_improvement then st.noImprove + 1 else 0
    roundImps := st'.roundImps ++ [roundImprovement] }

/-- The round loop (`for round_idx in range(1, rounds+1)`), breaking once
the streak reaches `patience`. -/
def runRounds (cfg : SearchConfig) (env : ℕ → ℕ → ℚ × ℚ) :
    ℕ → ℕ → EngineState → EngineState
  | 0, _, st => st
  | n + 1, roundIdx, st =>
      let st' := processRound cfg env roundIdx st
      if cfg.patience ≤ st'.noImprove then st'
      else runRounds cfg env n (roundIdx + 1) st'

/-- `AFlowXSearchEngine.optimize` after root evaluation: the root's train
objective and model-selection objective initialise the bests. -/
def optimize (cfg : SearchConfig) (env : ℕ → ℕ → ℚ × ℚ)
    (rootTrainObjective rootValObjective : ℚ) : EngineState :=
  runRounds cfg env cfg.rounds 1
    { bestTrain := rootTrainObjective
      bestVal := rootValObjective
      noImprove := 0
      traces := []
      roundImps := [] }

/-- Count of leading entries strictly below `eps`. -/
def leadLow (eps : ℚ) : List ℚ → ℕ
  | [] => 0
  | x :: rest => if x < eps then leadLow eps rest + 1 else 0

/-- Count of trailing entries strictly below `eps` — the value the
`no_improve` counter tracks. -/
def trailLow (eps : ℚ) (l : List ℚ) : ℕ := leadLow eps l.reverse

/-- Every executed round except possibly the last left the streak below
`patience` (otherwise the loop would have stopped earlier). -/
def NoEarlyStop (patience : ℕ) (eps : ℚ) (l : List ℚ) : Prop :=
  ∀ j, j + 1 < l.length → trailLow eps (l.take (j + 1)) < patience

/-- Invariant carried through the loop for the monotonicity claim: both
best-objective columns of the recorded trace are sorted and bounded by
the current bests. -/
def TracesOk (st : EngineState) : Prop :=
  (st.traces.map (fun t => t.best_train_objective)).Pairwise (· ≤ ·)
  ∧ (st.traces.map (fun t => t.best_val_objective)).Pairwise (· ≤ ·)
  ∧ (∀ t ∈ st.traces, t.best_train_objective ≤ st.bestTrain)
  ∧ (∀ t ∈ st.traces, t.best_val_objective ≤ st.bestVal)

end SearchEngine

/-! ## Artifact store (`infrastructure/persistence/artifact_store.py`)

Path handling works on the underlying character lists.  `PurePosixPath`
construction + `as_posix()` is modelled by what it does to a relative
POSIX path string: split on `/`, drop empty and `"."` components, and
rejoin with `/` (`"." ` when no component remains). -/

namespace ArtifactStorePath

/-- Python `str.replace("\\", "/")` (single-character pattern). -/
def replaceBackslashes (l : List Char) : List Char :=
  l.map (fun c => if c = '\\' then '/' else c)

/-- Split on every `'/'`, keeping empty segments (Python `s.split("/")`). -/
def splitOnSlash : List Char → List (List Char)
  | [] => [[]]
  | c :: rest =>
      if c = '/' then [] :: splitOnSlash rest
      else
        match splitOnSlash rest with
        | [] => [[c]]
        | seg :: segs => (c :: seg) :: segs

/-- Join segments with `'/'` (`"/".join`). -/
def joinSlash : List (List Char) → List Char
  | [] => []
  | [seg] => seg
  | seg :: rest => seg ++ '/' :: joinSlash rest

/-- A `PurePosixPath` component survives parsing when it is neither
empty nor `"."`. -/
def keepComponent (seg : List Char) : Bool :=
  !(seg.isEmpty || seg == ['.'])

/-- A segment the final check of `normalize_artifact_path` rejects. -/
def badSegment (seg : List Char) : Bool :=
  seg.isEmpty || seg == ['.'] || seg == ['.', '.']

/-- `PurePosixPath(raw).as_posix()` for a relative `raw`: parse into
components (dropping empty and `"."`) and rejoin. -/
def posixNormalized (raw : List Char) : List Char :=
  if (splitOnSlash raw).filter keepComponent = [] then ['.']
  else joinSlash ((splitOnSlash raw).filter keepComponent)

/-- `normalize_artifact_path` (`raw` is the stripped, backslash-replaced
input; the source also rejects a `normalized` equal to `""`, which the
path algebra never produces). -/
def normalize_artifact_path (path : String) : Except String String :=
  if replaceBackslashes (stripChars path.data) = [] then
    Except.error "artifact path must not be empty"
  else if (replaceBackslashes (stripChars path.data)).head? = some '/' then
    Except.error "artifact path must be relative"
  else if posixNormalized (replaceBackslashes (stripChars path.data)) = ['.']
      ∨ posixNormalized (replaceBackslashes (stripChars path.data)) = [] then
    Except.error "artifact path must not be current directory"
  else if (splitOnSlash (posixNormalized (replaceBackslashes
      (stripChars path.data)))).any badSegment then
    Except.error "artifact path contains illegal traversal segment"
  else
    Except.ok (String.mk (posixNormalized (replaceBackslashes (stripChars path.data))))

/-- Python `str.partition(sep)` core: first occurrence of `sep`,
returning the pieces before and after it. -/
def findSep (sep : List Char) : List Char → Option (List Char × List Char)
  | [] => if sep.isEmpty then some ([], []) else none
  | c :: rest =>
      if sep.isPrefixOf (c :: rest) then some ([], (c :: rest).drop sep.length)
      else (findSep sep rest).map (fun p => (c :: p.1, p.2))

/-- `parse_artifact_uri`: split on the first `"://"` and normalize the
payload. -/
def parse_artifact_uri (uri : String) : Except String (String × String) :=
  match findSep [':', '/', '/'] uri.data with
  | none => Except.error "invalid artifact URI"
  | some (scheme, payload) =>
      if scheme = [] then Except.error "invalid artifact URI"
      else
        match normalize_artifact_path (String.mk payload) with
        | Except.error e => Except.error e
        | Except.ok normalized => Except.ok (String.mk scheme, normalized)

end ArtifactStorePath

/-! ### SHA-256 (`compute_sha256` = `hashlib.sha256(payload).hexdigest()`)

A byte-level implementation of FIPS 180-4 on `ℕ` (words reduced mod
`2^32`), used for the checksum field of the stores. -/

namespace Sha256

def w32 (n : ℕ) : ℕ := n % 4294967296

def rotr (b n : ℕ) : ℕ :=
  w32 ((n >>> b) ||| (n <<< (32 - b)))

def bigSigma0 (x : ℕ) : ℕ := (rotr 2 x) ^^^ (rotr 13 x) ^^^ (rotr 22 x)
def bigSigma1 (x : ℕ) : ℕ := (rotr 6 x) ^^^ (rotr 11 x) ^^^ (rotr 25 x)
def smallSigma0 (x : ℕ) : ℕ := (rotr 7 x) ^^^ (rotr 18 x) ^^^ (x >>> 3)
def smallSigma1 (x : ℕ) : ℕ := (rotr 17 x) ^^^ (rotr 19 x) ^^^ (x >>> 10)
def chFun (x y z : ℕ) : ℕ := (x &&& y) ^^^ ((0xffffffff ^^^ x) &&& z)
def majFun (x y z : ℕ) : ℕ := (x &&& y) ^^^ (x &&& z) ^^^ (y &&& z)

/-- The 64 round constants K of FIPS 180-4 section 4.2.2, written in
decimal (0x428a2f98 = 1116352408, ..., 0xc67178f2 = 3329325298). -/
def roundConstants : List ℕ :=
  [1116352408, 1899447441, 3049323471, 3921009573, 961987163, 1508970993,
   2453635748, 2870763221, 3624381080, 310598401, 607225278, 1426881987,
   1925078388, 2162078206, 2614888103, 3248222580, 3835390401, 4022224774,
   264347078, 604807628, 770255983, 1249150122, 1555081692, 1996064986,
   2554220882, 2821834349, 2952996808, 3210313671, 3336571891, 3584528711,
   113926993, 338241895, 666307205, 773529912, 1294757372, 1396182291,
   1695183700, 1986661051, 2177026350, 2456956037, 2730485921, 2820302411,
   3259730800, 3345764771, 3516065817, 3600352804, 4094571909, 275423344,
   430227734, 506948616, 659060556, 883997877, 958139571, 1322822218,
   1537002063, 1747873779, 1955562222, 2024104815, 2227730452, 2361852424,
   2428436474, 2756734187, 3204031479, 3329325298]

/-- The initial hash value H(0) of FIPS 180-4 section 5.3.3, in decimal
(0x6a09e667 = 1779033703, ..., 0x5be0cd19 = 1541459225). -/
def initialHash : List ℕ :=
  [1779033703, 3144134277, 1013904242, 2773480762,
   1359893119, 2600822924, 528734635, 1541459225]

/-- Big-endian bytes of `n`, `count` bytes. -/
def beBytes (count n : ℕ) : List ℕ :=
  (List.range count).map (fun i => (n >>> (8 * (count - 1 - i))) % 256)

/-- FIPS padding: `0x80`, zeros to 56 mod 64, then the 64-bit bit length. -/
def padMessage (msg : List ℕ) : List ℕ :=
  let len := msg.length
  let zeros := (119 - (len % 64)) % 64
  msg ++ [0x80] ++ List.replicate zeros 0 ++ beBytes 8 (8 * len)

/-- Split into chunks of `k`; `fuel` bounds the recursion and is always
supplied `≥ length`. -/
def chunkList {α : Type} (k : ℕ) : ℕ → List α → List (List α)
  | 0, _ => []
  | _, [] => []
  | fuel + 1, l => l.take k :: chunkList k fuel (l.drop k)

def bytesToWord : List ℕ → ℕ
  | [b0, b1, b2, b3] => ((b0 <<< 24) + (b1 <<< 16) + (b2 <<< 8) + b3)
  | _ => 0

/-- Extend the 16 block words to the 64-entry message schedule. -/
def extendSchedule : ℕ → List ℕ → List ℕ
  | 0, w => w
  | n + 1, w =>
      let m := w.length
      let next := w32 (smallSigma1 (w.getD (m - 2) 0) + w.getD (m - 7) 0 +
        smallSigma0 (w.getD (m - 15) 0) + w.getD (m - 16) 0)
      extendSchedule n (w ++ [next])

/-- One compression round on the 8-word working state. -/
def compressRound (state : List ℕ) (kw : ℕ × ℕ) : List ℕ :=
  match state with
  | [a, b, c, d, e, f, g, h] =>
      let t1 := w32 (h + bigSigma1 e + chFun e f g + kw.1 + kw.2)
      let t2 := w32 (bigSigma0 a + majFun a b c)
      [w32 (t1 + t2), a, b, c, w32 (d + t1), e, f, g]
  | s => s

/-- Process one 64-byte block. -/
def processBlock (h : List ℕ) (block : List ℕ) : List ℕ :=
  let w0 := (chunkList 4 (block.length + 1) block).map bytesToWord
  let w := extendSchedule 48 w0
  let final := (roundConstants.zip w).foldl compressRound h
  (h.zip final).map (fun p => w32 (p.1 + p.2))

def hexChar (n : ℕ) : Char :=
  if n < 10 then Char.ofNat (48 + n) else Char.ofNat (87 + n)

def byteToHex (b : ℕ) : List Char := [hexChar (b / 16), hexChar (b % 16)]

end Sha256

/-- `compute_sha256(payload).hexdigest()`: digest of a byte list as a
lowercase hex string. -/
def compute_sha256 (payload : List ℕ) : String :=
  let padded := Sha256.padMessage payload
  let blocks := Sha256.chunkList 64 (padded.length + 1) padded
  let digest := blocks.foldl Sha256.processBlock Sha256.initialHash
  String.mk (digest.foldr (fun word acc => (Sha256.beBytes 4 word).foldr
    (fun b acc2 => Sha256.byteToHex b ++ acc2) acc) [])

/-! ### The two store backends -/

/-- Metadata returned by `put` (`StoredArtifact`). -/
structure StoredArtifact where
  uri : String
  checksum : String
  size_bytes : ℕ
  local_path : Option String
deriving DecidableEq, Repr

/-- `ArtifactStore.build_uri`: normalizes the given path *again* and
prefixes the scheme.  Both `put` implementations call it on an
already-normalized path, so the second normalization's `str.strip` can
alter the path (or even fail) when the normalized path begins or ends
with whitespace. -/
def build_uri (scheme : String) (path : String) : Except String String :=
  match ArtifactStorePath.normalize_artifact_path path with
  | Except.error e => Except.error e
  | Except.ok normalized => Except.ok (scheme ++ "://" ++ normalized)

/-! `LocalArtifactStore`: the files written under the root, keyed by
normalized relative path (the root is fixed per store, so this keying
is equivalent to keying by the absolute destination). -/

namespace LocalArtifactStore

abbrev FileState := List (String × List ℕ)

/-- `LocalArtifactStore.put`: normalization errors propagate before any
byte is written (the returned state is unchanged on error); the write
happens before `build_uri` re-normalizes the path, so a failing
re-normalization raises with the bytes already written.  `root` is
`str(self._root)` (absolute, no trailing slash), making the
`destination` string `root ++ "/" ++ normalized_path`. -/
def put (root : String) (st : FileState) (path : String) (payload : List ℕ) :
    Except String StoredArtifact × FileState :=
  match ArtifactStorePath.normalize_artifact_path path with
  | Except.error e => (Except.error e, st)
  | Except.ok normalized_path =>
      match build_uri "local" normalized_path with
      | Except.error e => (Except.error e, (normalized_path, payload) :: st)
      | Except.ok uri =>
          (Except.ok
            { uri := uri
              checksum := compute_sha256 payload
              size_bytes := payload.length
              local_path := some (root ++ "/" ++ normalized_path) },
            (normalized_path, payload) :: st)

end LocalArtifactStore

/-! `InMemoryArtifactStore`: a dictionary from normalized path to bytes. -/

namespace InMemoryArtifactStore

abbrev ObjectState := List (String × List ℕ)

/-- `InMemoryArtifactStore.put`: normalization errors propagate before
the write; the dictionary write happens before `build_uri`
re-normalizes the path for the returned URI, so a failing
re-normalization raises with the object already stored. -/
def put (st : ObjectState) (path : String) (payload : List ℕ) :
    Except String StoredArtifact × ObjectState :=
  match ArtifactStorePath.normalize_artifact_path path with
  | Except.error e => (Except.error e, st)
  | Except.ok normalized_path =>
      match build_uri "memory" normalized_path with
      | Except.error e => (Except.error e, (normalized_path, payload) :: st)
      | Except.ok uri =>
          (Except.ok
            { uri := uri
              checksum := compute_sha256 payload
              size_bytes := payload.length
              local_path := none },
            (normalized_path, payload) :: st)

/-- `InMemoryArtifactStore.get`: parse the URI (which re-normalizes the
payload path), check the scheme, and look the object up;
`FileNotFoundError` surfaces as an error. -/
def get (st : ObjectState) (uri : String) : Except String (List ℕ) :=
  match ArtifactStorePath.parse_artifact_uri uri with
  | Except.error e => Except.error e
  | Except.ok (scheme, normalized_path) =>
      if scheme = "memory" then
        match List.lookup normalized_path st with
        | some payload => Except.ok payload
        | none => Except.error ("FileNotFoundError: " ++ uri)
      else Except.error ("unsupported artifact scheme for memory store: " ++ scheme)

end InMemoryArtifactStore

/-! ## Dynamic dataset synthesizer
(`infrastructure/synthesis/dynamic_synthesizer.py`)

The synthesizer draws from a seeded `random.Random`; the embedding
threads an arbitrary choice stream `g : ℕ → ℕ` together with a position
counter, and every draw of the Python code (`choice`, `sample`,
`shuffle`) consumes stream positions in order, reducing the drawn value
modulo the number of alternatives.  The split ratios are the
constructor defaults 0.6 / 0.2 / 0.2 used by every caller. -/

namespace Synth

/-- `TaskIntent` from `domain/enums.py`. -/
inductive TaskIntent where
  | QUERY
  | ANALYTICS
  | MODELING
  | IMPORT
  | QA
deriving DecidableEq, Repr

/-- `Difficulty` from `domain/enums.py` (the synthesizer cycles L1..L4). -/
inductive Difficulty where
  | L1
  | L2
  | L3
  | L4
deriving DecidableEq, Repr

/-- A seed template: all ten question templates in `_build_templates`
mention `{label}` exactly once and `{relation}` exactly once, in that
order, so `question_template` is embedded as the three literal pieces
around the two holes and `.format` as concatenation. -/
structure SeedTemplate where
  intent : TaskIntent
  beforeLabel : String
  betweenHoles : String
  afterRelation : String
deriving DecidableEq, Repr

instance : Inhabited SeedTemplate := ⟨⟨TaskIntent.QUERY, "", "", ""⟩⟩

/-- `seed.question_template.format(label=label, relation=relation)`. -/
def renderTemplate (t : SeedTemplate) (label relation : String) : String :=
  t.beforeLabel ++ label ++ t.betweenHoles ++ relation ++ t.afterRelation

/-- `template_map` of `_build_templates`. -/
def template_map : TaskIntent → List SeedTemplate
  | .QUERY =>
      [⟨.QUERY, "Find ", " entities linked by ", " and return key properties."⟩,
       ⟨.QUERY, "Which ", " nodes satisfy path constraints through ", "?"⟩]
  | .ANALYTICS =>
      [⟨.ANALYTICS, "Run graph analytics on ", " using ", " and explain top findings."⟩,
       ⟨.ANALYTICS, "Identify anomalous subgraphs in ", " connected by ", "."⟩]
  | .MODELING =>
      [⟨.MODELING, "Design schema evolution for ", " and relationship ", "."⟩,
       ⟨.MODELING, "Propose constraints for ", " connected via ", "."⟩]
  | .IMPORT =>
      [⟨.IMPORT, "Create an ingestion plan for ", " and map edges via ", "."⟩,
       ⟨.IMPORT, "Define pre-import validation for ", " with ", "."⟩]
  | .QA =>
      [⟨.QA, "Explain the semantic meaning of ", " and ", " in this graph."⟩,
       ⟨.QA, "Provide concise domain summary centered on ", "/", "."⟩]

/-- `any(word in text for word in words)`. -/
def keywordHit (text : String) (words : List String) : Bool :=
  words.any (fun w => occursIn w.data text.data)

/-- `_infer_intents`: keyword matching on the lowercased task
description, default `[QUERY, ANALYTICS]`, truncated to two intents. -/
def infer_intents (task_desc : String) : List TaskIntent :=
  let text := pyLower task_desc
  let intents :=
    (if keywordHit text ["query", "查询", "cypher", "查找"] then [TaskIntent.QUERY] else []) ++
      (if keywordHit text ["analytics", "analysis", "算法", "rank", "社区"] then
        [TaskIntent.ANALYTICS] else []) ++
      (if keywordHit text ["model", "schema", "建模", "实体", "关系"] then
        [TaskIntent.MODELING] else []) ++
      (if keywordHit text ["import", "导入", "etl", "ingest"] then
        [TaskIntent.IMPORT] else []) ++
      (if keywordHit text ["qa", "问答", "summarize", "explain", "介绍"] then
        [TaskIntent.QA] else [])
  (if intents = [] then [TaskIntent.QUERY, TaskIntent.ANALYTICS] else intents).take 2

/-- `_build_templates`: the templates of the chosen intents, in order. -/
def build_templates (intents : List TaskIntent) : List SeedTemplate :=
  (intents.map template_map).flatten

/-- `str.replace` on character lists: replace non-overlapping
occurrences of `pat` left to right.  The fuel is the remaining length;
each step consumes at least one character, so fuel never runs out on
the initial call. -/
def replaceSubAux (pat rep : List Char) : ℕ → List Char → List Char
  | 0, l => l
  | fuel + 1, l =>
      match l with
      | [] => []
      | c :: rest =>
          if pat.isPrefixOf (c :: rest) then
            rep ++ replaceSubAux pat rep fuel ((c :: rest).drop pat.length)
          else c :: replaceSubAux pat rep fuel rest

/-- Python `s.replace(pat, rep)` (for the non-empty patterns used by
`_paraphrase`). -/
def pyReplace (s pat rep : String) : String :=
  if pat.data = [] then s
  else ⟨replaceSubAux pat.data rep.data s.data.length s.data⟩

/-- `_paraphrase`: the three verb substitutions, keeping those that
changed the question. -/
def paraphrase (question : String) : List String :=
  [pyReplace question "Find" "Locate",
    pyReplace question "Which" "List",
    pyReplace question "Explain" "Summarize"].filter (fun c => c != question)

/-- The `while len(results) < target` loop of `_render_questions`: each
iteration draws a template, a label, and a relation (three stream
positions) and appends the rendered question plus its paraphrases.  At
least one question is added per iteration, so `target` units of fuel
suffice. -/
def renderLoop (g : ℕ → ℕ) (templates : List SeedTemplate) (labels relations : List String)
    (target : ℕ) : ℕ → ℕ → List String → ℕ × List String
  | 0, pos, acc => (pos, acc)
  | fuel + 1, pos, acc =>
      if target ≤ acc.length then (pos, acc)
      else
        renderLoop g templates labels relations target fuel (pos + 3)
          (acc ++
            renderTemplate (templates.getD (g pos % templates.length) default)
                (labels.getD (g (pos + 1) % labels.length) "")
                (relations.getD (g (pos + 2) % relations.length) "") ::
              paraphrase
                (renderTemplate (templates.getD (g pos % templates.length) default)
                  (labels.getD (g (pos + 1) % labels.length) "")
                  (relations.getD (g (pos + 2) % relations.length) "")))

/-- `_render_questions`: the advanced stream position and
`results[:target]`. -/
def render_questions (g : ℕ → ℕ) (pos : ℕ) (templates : List SeedTemplate)
    (labels relations : List String) (target : ℕ) : ℕ × List String :=
  ((renderLoop g templates labels relations target target pos []).1,
    (renderLoop g templates labels relations target target pos []).2.take target)

/-- `random.sample(pool, k)` modelled as `k` removals: each draw picks
an index into the remaining pool (one stream position per draw). -/
def sampleLoop (g : ℕ → ℕ) : ℕ → ℕ → List String → ℕ × List String
  | 0, pos, _ => (pos, [])
  | k + 1, pos, pool =>
      if pool.length = 0 then (pos, [])
      else
        ((sampleLoop g k (pos + 1) (pool.eraseIdx (g pos % pool.length))).1,
          pool.getD (g pos % pool.length) "" ::
            (sampleLoop g k (pos + 1) (pool.eraseIdx (g pos % pool.length))).2)

/-- The suffix appended to the `idx`-th sampled question by
`_hard_negative_questions`. -/
def negativeSuffix (labels relations : List String) (idx : ℕ) : String :=
  " Also explain why the answer cannot be inferred if " ++
    labels.getD (idx % labels.length) "" ++ " has no edge of type " ++
    relations.getD (idx % relations.length) "" ++ "."

/-- `_hard_negative_questions`. -/
def hard_negative_questions (g : ℕ → ℕ) (pos : ℕ)
    (questions labels relations : List String) : ℕ × List String :=
  if questions = [] then (pos, [])
  else
    ((sampleLoop g (min (max 2 (questions.length / 4)) questions.length) pos questions).1,
      ((sampleLoop g (min (max 2 (questions.length / 4)) questions.length) pos
          questions).2.enum.map
        (fun p => p.2 ++ negativeSuffix labels relations p.1)))

/-- `" ".join(tokens)`. -/
def joinSpace : List String → String
  | [] => ""
  | [t] => t
  | t :: rest => t ++ " " ++ joinSpace rest

/-- The dedup key `" ".join(question.lower().split())`. -/
def normKey (q : String) : String := joinSpace (pyTokens (pyLower q))

/-- `_deduplicate`: keep the first question carrying each key. -/
def dedupGo : List String → List String → List String
  | _, [] => []
  | seen, q :: rest =>
      if seen.contains (normKey q) then dedupGo seen rest
      else q :: dedupGo (normKey q :: seen) rest

/-- `_deduplicate` with an empty `seen` set. -/
def deduplicate (questions : List String) : List String := dedupGo [] questions

/-- `SyntheticCase` (`domain/models.py`) with the two lineage metadata
entries the synthesizer writes. -/
structure SyntheticCase where
  case_id : String
  question : String
  verifier : String
  intent : TaskIntent
  difficulty : Difficulty
  seed_index : ℕ
  is_hard_negative : Bool
deriving DecidableEq, Repr

instance : Inhabited SyntheticCase :=
  ⟨⟨"", "", "", TaskIntent.QUERY, Difficulty.L1, 0, false⟩⟩

/-- The `levels` list of `synthesize`. -/
def levels : List Difficulty := [Difficulty.L1, Difficulty.L2, Difficulty.L3, Difficulty.L4]

/-- One iteration of the `for idx, question in enumerate(...)` loop of
`synthesize`. -/
def mkCase (dataset_name : String) (resolver : String → String) (intents : List TaskIntent)
    (idx : ℕ) (question : String) : SyntheticCase :=
  { case_id := dataset_name ++ "-" ++ Nat.repr (idx + 1)
    question := question
    verifier := resolver question
    intent := intents.getD (idx % intents.length) TaskIntent.QUERY
    difficulty := levels.getD (idx % 4) Difficulty.L1
    seed_index := idx
    is_hard_negative := occursIn "cannot be inferred".data (pyLower question).data }

/-- The case-construction loop of `synthesize`. -/
def buildCases (dataset_name : String) (resolver : String → String)
    (intents : List TaskIntent) : ℕ → List String → List SyntheticCase
  | _, [] => []
  | idx, q :: rest =>
      mkCase dataset_name resolver intents idx q ::
        buildCases dataset_name resolver intents (idx + 1) rest

/-- `random.shuffle` modelled as repeated removal of a drawn index (any
permutation is reachable; one stream position per draw). -/
def shuffleGo (g : ℕ → ℕ) : ℕ → ℕ → List SyntheticCase → List SyntheticCase
  | 0, _, l => l
  | fuel + 1, pos, l =>
      match l with
      | [] => []
      | c :: rest =>
          (c :: rest).getD (g pos % (c :: rest).length) default ::
            shuffleGo g fuel (pos + 1) ((c :: rest).eraseIdx (g pos % (c :: rest).length))

/-- `int(total * 0.6)` with the default `train_ratio = 0.6`: for every
`total ≤ 30` the IEEE-754 product truncates to exactly `6 * total / 10`
(checked against CPython for each total in 0..30). -/
def trainEnd (total : ℕ) : ℕ := 6 * total / 10

/-- `int(total * 0.2)` with the default `val_ratio = 0.2`; likewise
exactly `2 * total / 10` for `total ≤ 30`. -/
def valCut (total : ℕ) : ℕ := 2 * total / 10

/-- `_split_cases` after the shuffle: the three slices
`shuffled[:train_end]`, `shuffled[train_end:val_end]`,
`shuffled[val_end:]` and the three rebalance branches. -/
def sliceAndRebalance (shuffled : List SyntheticCase) :
    List SyntheticCase × List SyntheticCase × List SyntheticCase :=
  let total := shuffled.length
  let train0 := shuffled.take (trainEnd total)
  let val0 := (shuffled.drop (trainEnd total)).take (valCut total)
  let test0 := shuffled.drop (trainEnd total + valCut total)
  let train1 := if train0 = [] ∧ shuffled ≠ [] then [shuffled.getD 0 default] else train0
  let val1 := if val0 = [] ∧ 1 < shuffled.length then [shuffled.getD 1 default] else val0
  let test1 :=
    if val0 = [] ∧ 1 < shuffled.length then
      test0.filter (fun c => c.case_id != (shuffled.getD 1 default).case_id)
    else test0
  let test2 := if test1 = [] ∧ 2 < shuffled.length then [shuffled.getD 2 default] else test1
  let train2 :=
    if test1 = [] ∧ 2 < shuffled.length then
      train1.filter (fun c => c.case_id != (shuffled.getD 2 default).case_id)
    else train1
  (train2, val1, test2)

/-- `_split_cases`. -/
def split_cases (g : ℕ → ℕ) (pos : ℕ) (cases : List SyntheticCase) :
    List SyntheticCase × List SyntheticCase × List SyntheticCase :=
  sliceAndRebalance (shuffleGo g cases.length pos cases)

/-- `bounded_size = max(6, min(size, 30))`. -/
def bounded_size (size : ℕ) : ℕ := max 6 (min size 30)

/-- The question pipeline of `synthesize` up to deduplication: rendered
questions, hard negatives appended, then first-occurrence dedup; also
returns the advanced stream position (the shuffle draws after these). -/
def questionPool (g : ℕ → ℕ) (task_desc : String) (size : ℕ)
    (labels relations : List String) : ℕ × List String :=
  let templates := build_templates (infer_intents task_desc)
  let rendered := render_questions g 0 templates labels relations (bounded_size size * 2)
  let negatives := hard_negative_questions g rendered.1 rendered.2 labels relations
  (negatives.1, deduplicate (rendered.2 ++ negatives.2))

/-- The `cases` list of `synthesize`: one case per question of
`questions[:bounded_size]`. -/
def synthCases (g : ℕ → ℕ) (resolver : String → String) (task_desc dataset_name : String)
    (size : ℕ) (labels relations : List String) : List SyntheticCase :=
  buildCases dataset_name resolver (infer_intents task_desc) 0
    ((questionPool g task_desc size labels relations).2.take (bounded_size size))

/-- The fields of `SyntheticDataset` (`domain/models.py`) the
synthesizer invariants are about. -/
structure SyntheticDataset where
  name : String
  task_desc : String
  cases : List SyntheticCase
  train_cases : List SyntheticCase
  val_cases : List SyntheticCase
  test_cases : List SyntheticCase
deriving Repr

/-- `DynamicDatasetSynthesizer.synthesize`, with the schema lists
already extracted (`_get_list` falls back to `["Node"]` /
`["RELATED_TO"]`; an empty list makes `random.choice` raise). -/
def synthesize (g : ℕ → ℕ) (resolver : String → String) (task_desc dataset_name : String)
    (size : ℕ) (labels relations : List String) : SyntheticDataset :=
  { name := dataset_name
    task_desc := task_desc
    cases := synthCases g resolver task_desc dataset_name size labels relations
    train_cases :=
      (split_cases g (questionPool g task_desc size labels relations).1
        (synthCases g resolver task_desc dataset_name size labels relations)).1
    val_cases :=
      (split_cases g (questionPool g task_desc size labels relations).1
        (synthCases g resolver task_desc dataset_name size labels relations)).2.1
    test_cases :=
      (split_cases g (questionPool g task_desc size labels relations).1
        (synthCases g resolver task_desc dataset_name size labels relations)).2.2 }

end Synth

/-! ### Theorems: judges, idempotency -/

/-- The overlap score is non-negative. -/
theorem HeuristicJudge.overlap_nonneg (lhs rhs : String) :
    0 ≤ HeuristicJudge.overlap lhs rhs := by
  unfold HeuristicJudge.overlap
  split
  · exact le_refl 0
  · positivity

/-- The overlap score is at most one. -/
theorem HeuristicJudge.overlap_le_one (lhs rhs : String) :
    HeuristicJudge.overlap lhs rhs ≤ 1 := by
  unfold HeuristicJudge.overlap
  split
  · exact zero_le_one
  · rename_i h
    have hcard : 0 < ((pyTokens lhs).toFinset.card : ℚ) := by
      have hne : (pyTokens lhs).toFinset.Nonempty := Finset.nonempty_iff_ne_empty.mpr h
      exact_mod_cast Finset.card_pos.mpr hne
    rw [div_le_one hcard]
    exact_mod_cast Finset.card_le_card Finset.inter_subset_left

/-- C6 (amended): `HeuristicJudge.judge` returns 1.0 on an exact
normalized match with a trusted reference; with a trusted reference and
no exact match it returns the *raw* token-overlap score (which lies in
`[0, 1]` but is not clamped); with no trusted reference it returns the
question/prediction overlap clamped to `[0.1, 0.8]`; an empty normalized
prediction scores 0.0. -/
theorem heuristic_judge_amended_spec (question expected prediction rubric : String) :
    (pyStripLower prediction = "" →
      HeuristicJudge.judge question expected prediction rubric = (0, "empty prediction"))
    ∧ (pyStripLower prediction ≠ "" → pyStripLower expected ≠ "" →
        pyStripLower expected ≠ "unknown" →
        pyStripLower expected = pyStripLower prediction →
        HeuristicJudge.judge question expected prediction rubric = (1, "exact match"))
    ∧ (pyStripLower prediction ≠ "" → pyStripLower expected ≠ "" →
        pyStripLower expected ≠ "unknown" →
        pyStripLower expected ≠ pyStripLower prediction →
        (HeuristicJudge.judge question expected prediction rubric).1 =
          HeuristicJudge.overlap (pyStripLower expected) (pyStripLower prediction)
        ∧ 0 ≤ (HeuristicJudge.judge question expected prediction rubric).1
        ∧ (HeuristicJudge.judge question expected prediction rubric).1 ≤ 1)
    ∧ (pyStripLower prediction ≠ "" →
        (pyStripLower expected = "" ∨ pyStripLower expected = "unknown") →
        (HeuristicJudge.judge question expected prediction rubric).1 =
          max (1/10) (min (4/5)
            (HeuristicJudge.overlap (pyLower question) (pyStripLower prediction)))
        ∧ 1/10 ≤ (HeuristicJudge.judge question expected prediction rubric).1
        ∧ (HeuristicJudge.judge question expected prediction rubric).1 ≤ 4/5) := by
  refine ⟨fun hp => ?_, fun hp hne hnu heq => ?_, fun hp hne hnu hneq => ?_,
    fun hp hcases => ?_⟩
  · unfold HeuristicJudge.judge
    rw [if_pos hp]
  · unfold HeuristicJudge.judge
    rw [if_neg hp, if_pos (And.intro hne hnu), if_pos heq]
  · have h1 : HeuristicJudge.judge question expected prediction rubric =
        (HeuristicJudge.overlap (pyStripLower expected) (pyStripLower prediction),
          "token overlap") := by
      unfold HeuristicJudge.judge
      rw [if_neg hp, if_pos (And.intro hne hnu), if_neg hneq]
    exact ⟨by rw [h1], by rw [h1]; exact HeuristicJudge.overlap_nonneg _ _,
      by rw [h1]; exact HeuristicJudge.overlap_le_one _ _⟩
  · have hno : ¬ (pyStripLower expected ≠ "" ∧ pyStripLower expected ≠ "unknown") := by
      rcases hcases with h | h <;> simp [h]
    have h1 : HeuristicJudge.judge question expected prediction rubric =
        (max (1/10) (min (4/5)
          (HeuristicJudge.overlap (pyLower question) (pyStripLower prediction))),
          "weak-supervision overlap") := by
      unfold HeuristicJudge.judge
      rw [if_neg hp, if_neg hno]
    refine ⟨by rw [h1], by rw [h1]; exact le_max_left _ _, ?_⟩
    rw [h1]
    exact max_le (by norm_num) (min_le_left _ _)

/-- C6 counterexample: the claim says the with-reference non-exact branch
is clamped to `[0.1, 0.8]`, but `judge("q", "a b", "c")` returns the raw
overlap `0 < 0.1`. -/
theorem heuristic_judge_clamp_counterexample :
    (HeuristicJudge.judge "q" "a b" "c" "").1 = 0
    ∧ ¬ ((1 : ℚ)/10 ≤ (HeuristicJudge.judge "q" "a b" "c" "").1) := by
  have h1 : (HeuristicJudge.judge "q" "a b" "c" "").1 =
      HeuristicJudge.overlap (pyStripLower "a b") (pyStripLower "c") := by
    unfold HeuristicJudge.judge
    rw [if_neg (by decide), if_pos (by decide), if_neg (by decide)]
  have h2 : HeuristicJudge.overlap (pyStripLower "a b") (pyStripLower "c") = 0 := by
    unfold HeuristicJudge.overlap
    rw [if_neg (by decide)]
    have hc : ((pyTokens (pyStripLower "a b")).toFinset ∩
        (pyTokens (pyStripLower "c")).toFinset).card = 0 := by decide
    rw [hc]
    norm_num
  rw [h1, h2]
  exact ⟨rfl, by norm_num⟩

/-- C6 witness: the amended branch facts evaluated at concrete inputs. -/
theorem heuristic_judge_amended_spec_witness :
    (HeuristicJudge.judge "q" "a b" "c" "").1 =
      HeuristicJudge.overlap (pyStripLower "a b") (pyStripLower "c")
    ∧ HeuristicJudge.judge "q" "paris" " Paris " "" = (1, "exact match") := by
  constructor
  · exact ((heuristic_judge_amended_spec "q" "a b" "c" "").2.2.1
      (by decide) (by decide) (by decide) (by decide)).1
  · exact (heuristic_judge_amended_spec "q" "paris" " Paris " "").2.1
      (by decide) (by decide) (by decide) (by decide)

/-- C10: `RuleBasedJudge.judge` returns `(0.0, "empty output")` exactly
when the normalized prediction is empty — the empty-prediction branch
takes precedence over the with-reference rules (0.95/0.75/0.20) and the
no-reference fallback rules (0.65/0.30/0.55), none of which can produce
that result. -/
theorem rule_based_judge_empty_output_iff
    (question expected prediction rubric : String) :
    RuleBasedJudge.judge question expected prediction rubric = (0, "empty output")
    ↔ pyStripLower prediction = "" := by
  unfold RuleBasedJudge.judge
  by_cases hp : pyStripLower prediction = ""
  · rw [if_pos hp]
    simp [hp]
  · rw [if_neg hp]
    constructor
    · intro h
      exfalso
      revert h
      split_ifs <;> intro h <;>
        exact absurd (congrArg Prod.snd h) (by decide)
    · intro h
      exact absurd h hp

/-- C7: `InMemoryIdempotencyStore.begin` inserts an `in_progress` record
and reports *started* when no record exists; reports the in-flight
conflict when the record is `in_progress`; and replays the cached
response when the record is `completed`. -/
theorem idempotency_begin_spec {ρ : Type} (st : Idem.Store ρ) (scope key : String) :
    (List.lookup (Idem.buildRecordKey scope key) st = none →
      Idem.begin st scope key =
        (Idem.BeginOutcome.started,
          (Idem.buildRecordKey scope key,
            ⟨Idem.Status.inProgressStatus, none⟩) :: st))
    ∧ (∀ record : Idem.Rec ρ,
        List.lookup (Idem.buildRecordKey scope key) st = some record →
        record.status = Idem.Status.inProgressStatus →
        Idem.begin st scope key = (Idem.BeginOutcome.conflict, st))
    ∧ (∀ (record : Idem.Rec ρ) (resp : ρ),
        List.lookup (Idem.buildRecordKey scope key) st = some record →
        record.status = Idem.Status.completedStatus →
        record.response = some resp →
        Idem.begin st scope key = (Idem.BeginOutcome.replay resp, st)) := by
  refine ⟨fun h => ?_, fun record h hs => ?_, fun record resp h hs hr => ?_⟩
  · unfold Idem.begin
    rw [h]
  · unfold Idem.begin
    rw [h]
    rcases record with ⟨status, response⟩
    cases hs
    rfl
  · unfold Idem.begin
    rw [h]
    rcases record with ⟨status, response⟩
    cases hs
    cases hr
    rfl

/-- C7 witness: the three `begin` branches at concrete stores. -/
theorem idempotency_begin_spec_witness :
    Idem.begin ([] : Idem.Store ℕ) "t1:optimize" "k" =
      (Idem.BeginOutcome.started,
        [("t1:optimize::k", ⟨Idem.Status.inProgressStatus, none⟩)])
    ∧ Idem.begin
        ([("t1:optimize::k", ⟨Idem.Status.inProgressStatus, none⟩)] : Idem.Store ℕ)
        "t1:optimize" "k" =
      (Idem.BeginOutcome.conflict,
        [("t1:optimize::k", ⟨Idem.Status.inProgressStatus, none⟩)])
    ∧ Idem.begin
        ([("t1:optimize::k", ⟨Idem.Status.completedStatus, some 7⟩)] : Idem.Store ℕ)
        "t1:optimize" "k" =
      (Idem.BeginOutcome.replay 7,
        [("t1:optimize::k", ⟨Idem.Status.completedStatus, some 7⟩)]) := by
  refine ⟨?_, ?_, ?_⟩
  · exact (idempotency_begin_spec ([] : Idem.Store ℕ) "t1:optimize" "k").1 (by decide)
  · exact (idempotency_begin_spec _ "t1:optimize" "k").2.1
      ⟨Idem.Status.inProgressStatus, none⟩ (by decide) rfl
  · exact (idempotency_begin_spec _ "t1:optimize" "k").2.2
      ⟨Idem.Status.completedStatus, some 7⟩ 7 (by decide) rfl rfl

/-! ### Theorems: circuit breaker (C5) -/

namespace Chat2GraphRuntime

theorem tryList_cons_ok (out c d : String) (rest : List AttemptOutcome) :
    tryList (AttemptOutcome.ok out :: rest) c d = (some out, "", "", 1) := rfl

theorem tryList_cons_timeout (msg c d : String) (rest : List AttemptOutcome) :
    tryList (AttemptOutcome.timeoutErr msg :: rest) c d =
      bumpCalls (tryList rest "TIMEOUT" msg) := rfl

theorem tryList_cons_exec (msg c d : String) (rest : List AttemptOutcome) :
    tryList (AttemptOutcome.execErr msg :: rest) c d =
      bumpCalls (tryList rest "EXECUTION_ERROR" msg) := rfl

/-- When every attempt in the window fails, the retry loop exhausts the
whole window and reports no payload. -/
theorem tryList_all_fail :
    ∀ (outcomes : List AttemptOutcome) (c d : String),
      (∀ o ∈ outcomes, o.isSuccess = false) →
      ∃ c' d', tryList outcomes c d = (none, c', d', outcomes.length) := by
  intro outcomes
  induction outcomes with
  | nil => intro c d _; exact ⟨c, d, rfl⟩
  | cons o rest ih =>
      intro c d hfail
      have hrest : ∀ x ∈ rest, x.isSuccess = false :=
        fun x hx => hfail x (List.mem_cons_of_mem _ hx)
      cases o with
      | ok out =>
          have := hfail (AttemptOutcome.ok out) (List.mem_cons_self _ _)
          exact absurd this (by simp [AttemptOutcome.isSuccess])
      | timeoutErr msg =>
          obtain ⟨c', d', hre⟩ := ih "TIMEOUT" msg hrest
          exact ⟨c', d', by
            simp only [tryList_cons_timeout, hre, bumpCalls, List.length_cons]⟩
      | execErr msg =>
          obtain ⟨c', d', hre⟩ := ih "EXECUTION_ERROR" msg hrest
          exact ⟨c', d', by
            simp only [tryList_cons_exec, hre, bumpCalls, List.length_cons]⟩

/-- When every attempt in the window raises a non-timeout exception with
message `msg`, the loop reports `EXECUTION_ERROR` with that message. -/
theorem tryList_all_execErr (msg : String) :
    ∀ (outcomes : List AttemptOutcome) (c d : String),
      outcomes ≠ [] →
      (∀ o ∈ outcomes, o = AttemptOutcome.execErr msg) →
      tryList outcomes c d =
        (none, "EXECUTION_ERROR", msg, outcomes.length) := by
  intro outcomes
  induction outcomes with
  | nil => intro _ _ h; exact absurd rfl h
  | cons o rest ih =>
      intro c d _ hall
      have ho : o = AttemptOutcome.execErr msg := hall o (List.mem_cons_self _ _)
      subst ho
      have hrest : ∀ x ∈ rest, x = AttemptOutcome.execErr msg :=
        fun x hx => hall x (List.mem_cons_of_mem _ hx)
      cases rest with
      | nil =>
          simp only [tryList_cons_exec, tryList, bumpCalls, List.length_cons,
            List.length_nil]
      | cons o' rest' =>
          have hre := ih "EXECUTION_ERROR" msg (by simp) hrest
          simp only [tryList_cons_exec, hre, bumpCalls, List.length_cons]

/-- If some attempt in the window succeeds and every earlier one fails,
the loop returns the successful payload. -/
theorem tryList_first_success (out : String) :
    ∀ (before after : List AttemptOutcome) (c d : String),
      (∀ o ∈ before, o.isSuccess = false) →
      ∃ n, tryList (before ++ AttemptOutcome.ok out :: after) c d =
        (some out, "", "", n) := by
  intro before
  induction before with
  | nil =>
      intro after c d _
      exact ⟨1, by simp only [List.nil_append, tryList_cons_ok]⟩
  | cons o rest ih =>
      intro after c d hbefore
      have hrest : ∀ x ∈ rest, x.isSuccess = false :=
        fun x hx => hbefore x (List.mem_cons_of_mem _ hx)
      cases o with
      | ok o' =>
          have := hbefore (AttemptOutcome.ok o') (List.mem_cons_self _ _)
          exact absurd this (by simp [AttemptOutcome.isSuccess])
      | timeoutErr msg =>
          obtain ⟨n, hre⟩ := ih after "TIMEOUT" msg hrest
          exact ⟨n + 1, by
            simp only [List.cons_append, tryList_cons_timeout, hre, bumpCalls]⟩
      | execErr msg =>
          obtain ⟨n, hre⟩ := ih after "EXECUTION_ERROR" msg hrest
          exact ⟨n + 1, by
            simp only [List.cons_append, tryList_cons_exec, hre, bumpCalls]⟩

theorem attemptWindow_length (attempts : ℕ → AttemptOutcome) (maxRetries : ℕ) :
    (attemptWindow attempts maxRetries).length = maxRetries + 1 := by
  simp [attemptWindow]

theorem attemptWindow_ne_nil (attempts : ℕ → AttemptOutcome) (maxRetries : ℕ) :
    attemptWindow attempts maxRetries ≠ [] := by
  intro h
  have := attemptWindow_length attempts maxRetries
  rw [h] at this
  simp at this

end Chat2GraphRuntime

/-- C5: circuit-breaker behaviour of the external runtime adapter.
(a) a call whose retries are all exhausted increments the
consecutive-failure counter by exactly one; (b) a call arriving while
the circuit is open short-circuits with `RUNTIME_ERROR[CIRCUIT_OPEN]`,
does not invoke the underlying executor, makes no retries and leaves the
breaker state unchanged; once the counter reaches the threshold the
circuit stays open until `reset_seconds` after the failure; (c) a single
successful attempt resets the counter and closes the circuit; (d) with
an executor that always throws and threshold 2, three consecutive calls
within the reset window yield `RUNTIME_ERROR[EXECUTION_ERROR]`,
`RUNTIME_ERROR[EXECUTION_ERROR]`, `RUNTIME_ERROR[CIRCUIT_OPEN]`, the
third call invoking the executor zero times. -/
theorem circuit_breaker_spec :
    (∀ (s : Chat2GraphRuntime.RtSettings) (st : Chat2GraphRuntime.BreakerState)
        (now failTime : ℚ) (attempts : ℕ → Chat2GraphRuntime.AttemptOutcome),
      ¬ now < st.circuitOpenUntil →
      (∀ o ∈ Chat2GraphRuntime.attemptWindow attempts s.maxRetries,
        o.isSuccess = false) →
      (Chat2GraphRuntime.executeCase s st now failTime attempts).state.consecutiveFailures
        = st.consecutiveFailures + 1
      ∧ (s.threshold ≤ st.consecutiveFailures + 1 →
          (Chat2GraphRuntime.executeCase s st now failTime attempts).state.circuitOpenUntil
            = failTime + s.resetSeconds))
    ∧ (∀ (s : Chat2GraphRuntime.RtSettings) (st : Chat2GraphRuntime.BreakerState)
        (now failTime : ℚ) (attempts : ℕ → Chat2GraphRuntime.AttemptOutcome),
      now < st.circuitOpenUntil →
      Chat2GraphRuntime.executeCase s st now failTime attempts =
        ⟨Chat2GraphRuntime.runtimeErrorText "CIRCUIT_OPEN" "chat2graph circuit open",
          st, 0⟩)
    ∧ (∀ (s : Chat2GraphRuntime.RtSettings) (st : Chat2GraphRuntime.BreakerState)
        (now failTime : ℚ) (attempts : ℕ → Chat2GraphRuntime.AttemptOutcome)
        (out : String) (before after : List Chat2GraphRuntime.AttemptOutcome),
      ¬ now < st.circuitOpenUntil →
      Chat2GraphRuntime.attemptWindow attempts s.maxRetries =
        before ++ Chat2GraphRuntime.AttemptOutcome.ok out :: after →
      (∀ o ∈ before, o.isSuccess = false) →
      (Chat2GraphRuntime.executeCase s st now failTime attempts).output = out
      ∧ (Chat2GraphRuntime.executeCase s st now failTime attempts).state = ⟨0, 0⟩)
    ∧ (∀ (s : Chat2GraphRuntime.RtSettings) (msg : String) (t1 f1 t2 f2 t3 f3 : ℚ),
      s.threshold = 2 → 0 ≤ t1 → 0 ≤ t2 → t3 < f2 + s.resetSeconds →
      (Chat2GraphRuntime.executeCase s ⟨0, 0⟩ t1 f1
          (fun _ => Chat2GraphRuntime.AttemptOutcome.execErr msg)).output =
        Chat2GraphRuntime.runtimeErrorText "EXECUTION_ERROR" msg
      ∧ (Chat2GraphRuntime.executeCase s
          (Chat2GraphRuntime.executeCase s ⟨0, 0⟩ t1 f1
            (fun _ => Chat2GraphRuntime.AttemptOutcome.execErr msg)).state t2 f2
          (fun _ => Chat2GraphRuntime.AttemptOutcome.execErr msg)).output =
        Chat2GraphRuntime.runtimeErrorText "EXECUTION_ERROR" msg
      ∧ (Chat2GraphRuntime.executeCase s
          (Chat2GraphRuntime.executeCase s
            (Chat2GraphRuntime.executeCase s ⟨0, 0⟩ t1 f1
              (fun _ => Chat2GraphRuntime.AttemptOutcome.execErr msg)).state t2 f2
            (fun _ => Chat2GraphRuntime.AttemptOutcome.execErr msg)).state t3 f3
          (fun _ => Chat2GraphRuntime.AttemptOutcome.execErr msg)).output =
        Chat2GraphRuntime.runtimeErrorText "CIRCUIT_OPEN" "chat2graph circuit open"
      ∧ (Chat2GraphRuntime.executeCase s
          (Chat2GraphRuntime.executeCase s
            (Chat2GraphRuntime.executeCase s ⟨0, 0⟩ t1 f1
              (fun _ => Chat2GraphRuntime.AttemptOutcome.execErr msg)).state t2 f2
            (fun _ => Chat2GraphRuntime.AttemptOutcome.execErr msg)).state t3 f3
          (fun _ => Chat2GraphRuntime.AttemptOutcome.execErr msg)).executorCalls = 0) := by
  have hfailCase :
      ∀ (s : Chat2GraphRuntime.RtSettings) (st : Chat2GraphRuntime.BreakerState)
        (now failTime : ℚ) (attempts : ℕ → Chat2GraphRuntime.AttemptOutcome),
      ¬ now < st.circuitOpenUntil →
      (∀ o ∈ Chat2GraphRuntime.attemptWindow attempts s.maxRetries,
        o.isSuccess = false) →
      ∃ category detail,
        Chat2GraphRuntime.executeCase s st now failTime attempts =
          ⟨Chat2GraphRuntime.runtimeErrorText category detail,
            Chat2GraphRuntime.recordFailure s st failTime, s.maxRetries + 1⟩ := by
    intro s st now failTime attempts hclosed hfail
    obtain ⟨c', d', hre⟩ :=
      Chat2GraphRuntime.tryList_all_fail
        (Chat2GraphRuntime.attemptWindow attempts s.maxRetries)
        "EXECUTION_ERROR" "unknown runtime failure" hfail
    refine ⟨c', d', ?_⟩
    unfold Chat2GraphRuntime.executeCase
    rw [if_neg hclosed, hre, Chat2GraphRuntime.attemptWindow_length]
  refine ⟨fun s st now failTime attempts hclosed hfail => ?_,
    fun s st now failTime attempts hopen => ?_,
    fun s st now failTime attempts out before after hclosed hsplit hbefore => ?_,
    fun s msg t1 f1 t2 f2 t3 f3 hthr ht1 ht2 ht3 => ?_⟩
  · obtain ⟨c', d', h⟩ := hfailCase s st now failTime attempts hclosed hfail
    rw [h]
    constructor
    · unfold Chat2GraphRuntime.recordFailure
      split <;> rfl
    · intro hle
      unfold Chat2GraphRuntime.recordFailure
      rw [if_pos hle]
  · unfold Chat2GraphRuntime.executeCase
    rw [if_pos hopen]
  · obtain ⟨n, hre⟩ :=
      Chat2GraphRuntime.tryList_first_success out before after
        "EXECUTION_ERROR" "unknown runtime failure" hbefore
    have h : Chat2GraphRuntime.executeCase s st now failTime attempts =
        ⟨out, ⟨0, 0⟩, n⟩ := by
      unfold Chat2GraphRuntime.executeCase
      rw [if_neg hclosed, hsplit, hre]
    rw [h]
    exact ⟨rfl, rfl⟩
  · have hfail : ∀ (st : Chat2GraphRuntime.BreakerState) (now failTime : ℚ),
        ¬ now < st.circuitOpenUntil →
        Chat2GraphRuntime.executeCase s st now failTime
            (fun _ => Chat2GraphRuntime.AttemptOutcome.execErr msg) =
          ⟨Chat2GraphRuntime.runtimeErrorText "EXECUTION_ERROR" msg,
            Chat2GraphRuntime.recordFailure s st failTime, s.maxRetries + 1⟩ := by
      intro st now failTime hclosed
      have hall : ∀ o ∈ Chat2GraphRuntime.attemptWindow
          (fun _ => Chat2GraphRuntime.AttemptOutcome.execErr msg) s.maxRetries,
          o = Chat2GraphRuntime.AttemptOutcome.execErr msg := by
        intro o ho
        simp only [Chat2GraphRuntime.attemptWindow, List.mem_map] at ho
        obtain ⟨k, _, rfl⟩ := ho
        rfl
      have hre := Chat2GraphRuntime.tryList_all_execErr msg
        (Chat2GraphRuntime.attemptWindow
          (fun _ => Chat2GraphRuntime.AttemptOutcome.execErr msg) s.maxRetries)
        "EXECUTION_ERROR" "unknown runtime failure"
        (Chat2GraphRuntime.attemptWindow_ne_nil _ _) hall
      unfold Chat2GraphRuntime.executeCase
      rw [if_neg hclosed, hre, Chat2GraphRuntime.attemptWindow_length]
    have h1 := hfail ⟨0, 0⟩ t1 f1 (by exact not_lt.mpr ht1)
    have hst1 : Chat2GraphRuntime.recordFailure s ⟨0, 0⟩ f1 =
        ⟨1, 0⟩ := by
      unfold Chat2GraphRuntime.recordFailure
      rw [if_neg (show ¬ s.threshold ≤ 0 + 1 by rw [hthr]; omega)]
    rw [hst1] at h1
    have h2 := hfail ⟨1, 0⟩ t2 f2 (by exact not_lt.mpr ht2)
    have hst2 : Chat2GraphRuntime.recordFailure s ⟨1, 0⟩ f2 =
        ⟨2, f2 + s.resetSeconds⟩ := by
      unfold Chat2GraphRuntime.recordFailure
      rw [if_pos (show s.threshold ≤ 1 + 1 by rw [hthr])]
    rw [hst2] at h2
    have h3 : Chat2GraphRuntime.executeCase s ⟨2, f2 + s.resetSeconds⟩ t3 f3
        (fun _ => Chat2GraphRuntime.AttemptOutcome.execErr msg) =
        ⟨Chat2GraphRuntime.runtimeErrorText "CIRCUIT_OPEN" "chat2graph circuit open",
          ⟨2, f2 + s.resetSeconds⟩, 0⟩ := by
      unfold Chat2GraphRuntime.executeCase
      rw [if_pos ht3]
    rw [h1]
    refine ⟨rfl, ?_, ?_, ?_⟩
    · rw [h2]
    · rw [h2]
      rw [h3]
    · rw [h2]
      rw [h3]

/-- C5 witness: the E10 scenario at concrete settings and times. -/
theorem circuit_breaker_spec_witness :
    (Chat2GraphRuntime.executeCase ⟨1, 2, 5⟩ ⟨0, 0⟩ 0 0
        (fun _ => Chat2GraphRuntime.AttemptOutcome.execErr "boom")).output =
      Chat2GraphRuntime.runtimeErrorText "EXECUTION_ERROR" "boom"
    ∧ (Chat2GraphRuntime.executeCase ⟨1, 2, 5⟩
        (Chat2GraphRuntime.executeCase ⟨1, 2, 5⟩
          (Chat2GraphRuntime.executeCase ⟨1, 2, 5⟩ ⟨0, 0⟩ 0 0
            (fun _ => Chat2GraphRuntime.AttemptOutcome.execErr "boom")).state 0 0
          (fun _ => Chat2GraphRuntime.AttemptOutcome.execErr "boom")).state 0 0
        (fun _ => Chat2GraphRuntime.AttemptOutcome.execErr "boom")).output =
      Chat2GraphRuntime.runtimeErrorText "CIRCUIT_OPEN" "chat2graph circuit open" := by
  have h := circuit_breaker_spec.2.2.2 ⟨1, 2, 5⟩ "boom" 0 0 0 0 0 0
    rfl (le_refl 0) (le_refl 0) (by norm_num)
  exact ⟨h.1, h.2.2.1⟩

/-! ### Theorems: agent lifecycle repository (C4) -/

namespace Repo

theorem le_foldr_max (l : List ℕ) : ∀ x ∈ l, x ≤ l.foldr max 0 := by
  induction l with
  | nil => intro x hx; exact absurd hx (List.not_mem_nil x)
  | cons a t ih =>
      intro x hx
      rcases List.mem_cons.mp hx with rfl | hx
      · exact le_max_left _ _
      · exact le_trans (ih x hx) (le_max_right _ _)

theorem length_filter_map {α β : Type} (f : α → β) (p : β → Bool) (l : List α) :
    ((l.map f).filter p).length = (l.filter (fun a => p (f a))).length := by
  induction l with
  | nil => rfl
  | cons a t ih =>
      simp only [List.map_cons, List.filter_cons]
      cases h : p (f a) <;> simp [h, ih]

theorem filter_length_mono {α : Type} (p q : α → Bool)
    (h : ∀ a, p a = true → q a = true) (l : List α) :
    (l.filter p).length ≤ (l.filter q).length := by
  induction l with
  | nil => exact le_refl 0
  | cons a t ih =>
      by_cases hp : p a = true
      · have hq := h a hp
        simp only [List.filter_cons, hp, hq, if_pos, List.length_cons]
        exact Nat.add_le_add_right ih 1
      · by_cases hq : q a = true
        · simp [List.filter_cons, hp, hq]
          exact le_trans ih (Nat.le_succ _)
        · simp [List.filter_cons, hp, hq]
          exact ih

/-- With per-agent distinct versions, at most one row matches a fixed
(agent, version) pair. -/
theorem distinct_filter_target (agent : String) (version : ℕ) :
    ∀ l : RepoState, VersionsDistinct l →
      (l.filter (fun r => r.agent == agent && r.version == version)).length ≤ 1 := by
  intro l
  induction l with
  | nil => intro _; exact Nat.le_succ 0
  | cons r t ih =>
      intro hWF
      have hr := (List.pairwise_cons.mp hWF).1
      have ht := (List.pairwise_cons.mp hWF).2
      by_cases hc : (r.agent == agent && r.version == version) = true
      · have hnone : t.filter (fun x => x.agent == agent && x.version == version) = [] := by
          rw [List.filter_eq_nil_iff]
          intro x hx hcx
          simp only [Bool.and_eq_true, beq_iff_eq] at hc hcx
          exact (hr x hx (hc.1.trans hcx.1.symm)) (hc.2.trans hcx.2.symm)
        simp only [List.filter_cons, hc, if_pos, hnone, List.length_cons,
          List.length_nil]
        omega
      · simp only [Bool.not_eq_true] at hc
        simp only [List.filter_cons, hc]
        simpa using ih ht

theorem lifecycleMapFun_agent (agent : String) (version : ℕ)
    (lifecycle : AgentLifecycle) (r : VersionRow) :
    (lifecycleMapFun agent version lifecycle r).agent = r.agent := by
  unfold lifecycleMapFun
  split_ifs <;> rfl

theorem lifecycleMapFun_version (agent : String) (version : ℕ)
    (lifecycle : AgentLifecycle) (r : VersionRow) :
    (lifecycleMapFun agent version lifecycle r).version = r.version := by
  unfold lifecycleMapFun
  split_ifs <;> rfl

theorem create_preserves_distinct (st : RepoState) (agent : String)
    (lifecycle : AgentLifecycle) (h : VersionsDistinct st) :
    VersionsDistinct (create_version st agent lifecycle) := by
  unfold create_version VersionsDistinct
  rw [List.pairwise_append]
  refine ⟨h, List.pairwise_singleton _ _, ?_⟩
  intro r hr row hrow
  rcases List.mem_singleton.mp hrow with rfl
  intro hag
  have hmem : r.version ∈
      ((st.filter (fun x => x.agent == agent)).map (fun x => x.version)) := by
    exact List.mem_map_of_mem _ (List.mem_filter.mpr ⟨hr, beq_iff_eq.mpr hag⟩)
  have hle := le_foldr_max _ _ hmem
  show r.version ≠ next_version st agent
  unfold next_version
  omega

theorem create_preserves_inv (st : RepoState) (agent : String)
    (lifecycle : AgentLifecycle) (hlc : lifecycle ≠ AgentLifecycle.deployed)
    (h : AtMostOneDeployed st) :
    AtMostOneDeployed (create_version st agent lifecycle) := by
  intro a
  unfold deployedOf create_version
  rw [List.filter_append]
  have hrow : List.filter
      (fun r => r.agent == a && r.lifecycle == AgentLifecycle.deployed)
      ([⟨agent, next_version st agent, lifecycle⟩] : RepoState) = [] := by
    simp only [List.filter_cons, List.filter_nil]
    rw [if_neg]
    simp only [Bool.and_eq_true, beq_iff_eq]
    intro hcon
    exact hlc hcon.2
  rw [hrow, List.append_nil]
  exact h a

theorem update_preserves_distinct (st : RepoState) (agent : String)
    (version : ℕ) (lifecycle : AgentLifecycle) (h : VersionsDistinct st) :
    VersionsDistinct (st.map (lifecycleMapFun agent version lifecycle)) := by
  unfold VersionsDistinct at h ⊢
  refine List.Pairwise.map _ ?_ h
  intro a b hab
  rw [lifecycleMapFun_agent, lifecycleMapFun_agent,
    lifecycleMapFun_version, lifecycleMapFun_version]
  exact hab

theorem update_preserves_inv (st : RepoState) (agent : String) (version : ℕ)
    (lifecycle : AgentLifecycle) (hWF : VersionsDistinct st)
    (hInv : AtMostOneDeployed st) :
    AtMostOneDeployed (st.map (lifecycleMapFun agent version lifecycle)) := by
  intro a
  unfold deployedOf
  rw [length_filter_map]
  by_cases ha : agent = a
  · subst ha
    by_cases hlc : lifecycle = AgentLifecycle.deployed
    · subst hlc
      have hcong : ∀ r ∈ st,
          ((lifecycleMapFun agent version AgentLifecycle.deployed r).agent == agent &&
            (lifecycleMapFun agent version AgentLifecycle.deployed r).lifecycle ==
              AgentLifecycle.deployed)
          = (r.agent == agent && r.version == version) := by
        intro r _
        unfold lifecycleMapFun
        by_cases ht : r.agent = agent ∧ r.version = version
        · rw [if_pos (by simp [ht.1, ht.2])]
          simp [ht.1, ht.2]
        · rw [if_neg (by simp only [Bool.and_eq_true, beq_iff_eq]; exact ht)]
          by_cases hd : r.agent = agent ∧ r.lifecycle = AgentLifecycle.deployed
          · rw [if_pos (by simp [hd.1, hd.2])]
            have hv : r.version ≠ version := fun hv => ht ⟨hd.1, hv⟩
            simp [hd.1, hv]
          · rw [if_neg (by
              simp only [Bool.and_eq_true, beq_iff_eq]
              intro hcon
              exact hd ⟨hcon.1.2, hcon.2⟩)]
            by_cases hag : r.agent = agent
            · have hld : r.lifecycle ≠ AgentLifecycle.deployed :=
                fun hl => hd ⟨hag, hl⟩
              have hv : r.version ≠ version := fun hv => ht ⟨hag, hv⟩
              simp [hag, hld, hv]
            · have hb : (r.agent == agent) = false := beq_eq_false_iff_ne.mpr hag
              rw [hb]
              simp
      rw [List.filter_congr hcong]
      exact distinct_filter_target agent version st hWF
    · have hmono : ∀ r : VersionRow,
          ((lifecycleMapFun agent version lifecycle r).agent == agent &&
            (lifecycleMapFun agent version lifecycle r).lifecycle ==
              AgentLifecycle.deployed) = true →
          (r.agent == agent && r.lifecycle == AgentLifecycle.deployed) = true := by
        intro r hp
        unfold lifecycleMapFun at hp
        by_cases h1 : (r.agent == agent && r.version == version) = true
        · rw [if_pos h1] at hp
          simp only [Bool.and_eq_true, beq_iff_eq] at hp
          exact absurd hp.2 hlc
        · rw [if_neg h1] at hp
          by_cases h2 : (lifecycle == AgentLifecycle.deployed &&
              r.agent == agent && r.lifecycle == AgentLifecycle.deployed) = true
          · simp only [Bool.and_eq_true, beq_iff_eq] at h2
            exact absurd h2.1.1 hlc
          · rw [if_neg h2] at hp
            exact hp
      exact le_trans (filter_length_mono _ _ hmono st) (hInv agent)
  · have hmono : ∀ r : VersionRow,
        ((lifecycleMapFun agent version lifecycle r).agent == a &&
          (lifecycleMapFun agent version lifecycle r).lifecycle ==
            AgentLifecycle.deployed) = true →
        (r.agent == a && r.lifecycle == AgentLifecycle.deployed) = true := by
      intro r hp
      unfold lifecycleMapFun at hp
      by_cases h1 : (r.agent == agent && r.version == version) = true
      · rw [if_pos h1] at hp
        simp only [Bool.and_eq_true, beq_iff_eq] at hp h1
        exact absurd (h1.1.symm.trans hp.1) ha
      · rw [if_neg h1] at hp
        by_cases h2 : (lifecycle == AgentLifecycle.deployed &&
            r.agent == agent && r.lifecycle == AgentLifecycle.deployed) = true
        · rw [if_pos h2] at hp
          simp only [Bool.and_eq_true, beq_iff_eq] at hp
          exact absurd hp.2 (fun hcon => AgentLifecycle.noConfusion hcon)
        · rw [if_neg h2] at hp
          exact hp
    exact le_trans (filter_length_mono _ _ hmono st) (hInv a)

/-- One step of the operation sequence preserves distinct versions and
the single-deployment invariant. -/
theorem applyOp_good (st : RepoState) (op : RepoOp) (st' : RepoState)
    (hWF : VersionsDistinct st) (hInv : AtMostOneDeployed st)
    (hop : createsNonDeployed op) (happ : applyOp st op = Except.ok st') :
    VersionsDistinct st' ∧ AtMostOneDeployed st' := by
  cases op with
  | createOp agent lifecycle =>
      simp only [applyOp, Except.ok.injEq] at happ
      subst happ
      exact ⟨create_preserves_distinct st agent lifecycle hWF,
        create_preserves_inv st agent lifecycle hop hInv⟩
  | updateOp agent version lifecycle =>
      simp only [applyOp] at happ
      unfold update_lifecycle at happ
      split at happ
      · cases happ
      · simp only [Except.ok.injEq] at happ
        subst happ
        exact ⟨update_preserves_distinct st agent version lifecycle hWF,
          update_preserves_inv st agent version lifecycle hWF hInv⟩

theorem runOps_good :
    ∀ (ops : List RepoOp) (st₀ : RepoState),
      VersionsDistinct st₀ → AtMostOneDeployed st₀ →
      (∀ op ∈ ops, createsNonDeployed op) →
      ∀ st, runOps st₀ ops = Except.ok st →
        VersionsDistinct st ∧ AtMostOneDeployed st := by
  intro ops
  induction ops with
  | nil =>
      intro st₀ hWF hInv _ st hrun
      simp only [runOps, Except.ok.injEq] at hrun
      subst hrun
      exact ⟨hWF, hInv⟩
  | cons op rest ih =>
      intro st₀ hWF hInv hops st hrun
      simp only [runOps] at hrun
      cases happ : applyOp st₀ op with
      | ok st₁ =>
          rw [happ] at hrun
          have hgood := applyOp_good st₀ op st₁ hWF hInv
            (hops op (List.mem_cons_self _ _)) happ
          exact ih st₁ hgood.1 hgood.2
            (fun o ho => hops o (List.mem_cons_of_mem _ ho)) st hrun
      | error e =>
          rw [happ] at hrun
          cases hrun

end Repo

/-- C4 (amended): across every sequence of `create_version` and
`update_lifecycle` operations in which `create_version` is never invoked
with lifecycle DEPLOYED (all repository callers use the VALIDATED
default), at most one version per agent is DEPLOYED at any time; and
`update_lifecycle(agent, X, DEPLOYED)` sets version X of the agent to
DEPLOYED, demotes every other previously DEPLOYED version of that agent
to VALIDATED, and leaves other agents' rows unchanged. -/
theorem agent_deployed_amended_spec :
    (∀ (ops : List Repo.RepoOp) (st : Repo.RepoState),
      (∀ op ∈ ops, Repo.createsNonDeployed op) →
      Repo.runOps [] ops = Except.ok st →
      Repo.AtMostOneDeployed st)
    ∧ (∀ (st st' : Repo.RepoState) (agent : String) (version : ℕ),
      Repo.update_lifecycle st agent version Repo.AgentLifecycle.deployed =
        Except.ok st' →
      (∀ r ∈ st, r.agent = agent → r.version = version →
        Repo.VersionRow.mk agent version Repo.AgentLifecycle.deployed ∈ st')
      ∧ (∀ r ∈ st, r.agent = agent → r.version ≠ version →
          r.lifecycle = Repo.AgentLifecycle.deployed →
          Repo.VersionRow.mk r.agent r.version Repo.AgentLifecycle.validated ∈ st')
      ∧ (∀ r ∈ st, r.agent ≠ agent → r ∈ st')) := by
  constructor
  · intro ops st hops hrun
    exact (Repo.runOps_good ops [] List.Pairwise.nil
      (fun a => by simp [Repo.deployedOf]) hops st hrun).2
  · intro st st' agent version hup
    unfold Repo.update_lifecycle at hup
    split at hup
    · cases hup
    · simp only [Except.ok.injEq] at hup
      subst hup
      refine ⟨fun r hr h1 h2 => ?_, fun r hr h1 h2 h3 => ?_, fun r hr h1 => ?_⟩
      · have : Repo.lifecycleMapFun agent version Repo.AgentLifecycle.deployed r =
            ⟨agent, version, Repo.AgentLifecycle.deployed⟩ := by
          unfold Repo.lifecycleMapFun
          rw [if_pos (by simp [h1, h2])]
          show Repo.VersionRow.mk r.agent r.version Repo.AgentLifecycle.deployed = _
          rw [h1, h2]
        exact this ▸ List.mem_map_of_mem _ hr
      · have : Repo.lifecycleMapFun agent version Repo.AgentLifecycle.deployed r =
            ⟨r.agent, r.version, Repo.AgentLifecycle.validated⟩ := by
          unfold Repo.lifecycleMapFun
          rw [if_neg (by simp [h2]), if_pos (by simp [h1, h3])]
        exact this ▸ List.mem_map_of_mem _ hr
      · have : Repo.lifecycleMapFun agent version Repo.AgentLifecycle.deployed r = r := by
          unfold Repo.lifecycleMapFun
          rw [if_neg (by simp [h1]), if_neg (by simp [h1])]
        exact this ▸ List.mem_map_of_mem _ hr

/-- C4 counterexample: the claim as stated quantifies over *every*
sequence of `create_version` and `update_lifecycle` operations, but
`create_version` accepts an explicit DEPLOYED lifecycle and performs no
demotion, so two such calls leave two DEPLOYED versions of agent "a". -/
theorem agent_deployed_counterexample :
    Repo.runOps []
      [Repo.RepoOp.createOp "a" Repo.AgentLifecycle.deployed,
        Repo.RepoOp.createOp "a" Repo.AgentLifecycle.deployed] =
      Except.ok
        [⟨"a", 1, Repo.AgentLifecycle.deployed⟩,
          ⟨"a", 2, Repo.AgentLifecycle.deployed⟩]
    ∧ (Repo.deployedOf
        [⟨"a", 1, Repo.AgentLifecycle.deployed⟩,
          ⟨"a", 2, Repo.AgentLifecycle.deployed⟩] "a").length = 2 := by
  constructor
  · rfl
  · rfl

/-- C4 witness: a concrete create/deploy/create/deploy sequence ends with
exactly one DEPLOYED version of agent "a". -/
theorem agent_deployed_amended_spec_witness :
    Repo.runOps []
      [Repo.RepoOp.createOp "a" Repo.AgentLifecycle.validated,
        Repo.RepoOp.updateOp "a" 1 Repo.AgentLifecycle.deployed,
        Repo.RepoOp.createOp "a" Repo.AgentLifecycle.validated,
        Repo.RepoOp.updateOp "a" 2 Repo.AgentLifecycle.deployed] =
      Except.ok
        [⟨"a", 1, Repo.AgentLifecycle.validated⟩,
          ⟨"a", 2, Repo.AgentLifecycle.deployed⟩]
    ∧ (Repo.deployedOf
        [⟨"a", 1, Repo.AgentLifecycle.validated⟩,
          ⟨"a", 2, Repo.AgentLifecycle.deployed⟩] "a").length ≤ 1 := by
  constructor
  · rfl
  · exact agent_deployed_amended_spec.1
      [Repo.RepoOp.createOp "a" Repo.AgentLifecycle.validated,
        Repo.RepoOp.updateOp "a" 1 Repo.AgentLifecycle.deployed,
        Repo.RepoOp.createOp "a" Repo.AgentLifecycle.validated,
        Repo.RepoOp.updateOp "a" 2 Repo.AgentLifecycle.deployed]
      [⟨"a", 1, Repo.AgentLifecycle.validated⟩,
        ⟨"a", 2, Repo.AgentLifecycle.deployed⟩]
      (by intro op hop; fin_cases hop <;> simp [Repo.createsNonDeployed])
      rfl "a"

/-! ### Theorems: search engine (C2, C3) -/

namespace SearchEngine

theorem processExpansion_bestTrain_le (st : EngineState) (cand : ℚ × ℚ) :
    st.bestTrain ≤ (processExpansion st cand).bestTrain := by
  simp only [processExpansion]
  split
  · exact le_of_lt (by assumption)
  · exact le_refl _

theorem processExpansion_bestVal_le (st : EngineState) (cand : ℚ × ℚ) :
    st.bestVal ≤ (processExpansion st cand).bestVal := by
  simp only [processExpansion]
  split
  · exact le_of_lt (by assumption)
  · exact le_refl _

theorem processExpansion_ok (st : EngineState) (cand : ℚ × ℚ)
    (h : TracesOk st) : TracesOk (processExpansion st cand) := by
  obtain ⟨hpt, hpv, hbt, hbv⟩ := h
  have htle := processExpansion_bestTrain_le st cand
  have hvle := processExpansion_bestVal_le st cand
  refine ⟨?_, ?_, ?_, ?_⟩
  · simp only [processExpansion, List.map_append, List.map_cons, List.map_nil]
    rw [List.pairwise_append]
    refine ⟨hpt, List.pairwise_singleton _ _, ?_⟩
    intro x hx y hy
    rcases List.mem_singleton.mp hy with rfl
    obtain ⟨t, ht, rfl⟩ := List.mem_map.mp hx
    exact le_trans (hbt t ht) htle
  · simp only [processExpansion, List.map_append, List.map_cons, List.map_nil]
    rw [List.pairwise_append]
    refine ⟨hpv, List.pairwise_singleton _ _, ?_⟩
    intro x hx y hy
    rcases List.mem_singleton.mp hy with rfl
    obtain ⟨t, ht, rfl⟩ := List.mem_map.mp hx
    exact le_trans (hbv t ht) hvle
  · intro t ht
    simp only [processExpansion, List.mem_append, List.mem_singleton] at ht
    rcases ht with ht | rfl
    · exact le_trans (hbt t ht) htle
    · exact le_refl _
  · intro t ht
    simp only [processExpansion, List.mem_append, List.mem_singleton] at ht
    rcases ht with ht | rfl
    · exact le_trans (hbv t ht) hvle
    · exact le_refl _

theorem foldl_expansions_ok (env : ℕ → ℕ → ℚ × ℚ) (roundIdx : ℕ) :
    ∀ (l : List ℕ) (st : EngineState), TracesOk st →
      TracesOk (l.foldl (fun s e => processExpansion s (env roundIdx e)) st) := by
  intro l
  induction l with
  | nil => intro st h; exact h
  | cons e rest ih =>
      intro st h
      exact ih _ (processExpansion_ok st (env roundIdx e) h)

theorem processRound_ok (cfg : SearchConfig) (env : ℕ → ℕ → ℚ × ℚ)
    (roundIdx : ℕ) (st : EngineState) (h : TracesOk st) :
    TracesOk (processRound cfg env roundIdx st) := by
  have h' := foldl_expansions_ok env roundIdx (List.range cfg.expansions_per_round) st h
  exact h'

theorem runRounds_ok (cfg : SearchConfig) (env : ℕ → ℕ → ℚ × ℚ) :
    ∀ (n roundIdx : ℕ) (st : EngineState), TracesOk st →
      TracesOk (runRounds cfg env n roundIdx st) := by
  intro n
  induction n with
  | zero => intro _ st h; exact h
  | succ m ih =>
      intro roundIdx st h
      have h' := processRound_ok cfg env roundIdx st h
      simp only [runRounds]
      split
      · exact h'
      · exact ih _ _ h'

end SearchEngine

/-- C2: in every run of `AFlowXSearchEngine.optimize` — over every
oracle of candidate objectives — the `best_train_objective` values
recorded in successive `SearchRoundTrace` rows are non-decreasing in
trace order, and so are the `best_val_objective` values. -/
theorem search_monotonicity_spec (cfg : SearchEngine.SearchConfig)
    (env : ℕ → ℕ → ℚ × ℚ) (rootTrainObjective rootValObjective : ℚ) :
    ((SearchEngine.optimize cfg env rootTrainObjective rootValObjective).traces.map
      (fun t => t.best_train_objective)).Pairwise (· ≤ ·)
    ∧ ((SearchEngine.optimize cfg env rootTrainObjective rootValObjective).traces.map
      (fun t => t.best_val_objective)).Pairwise (· ≤ ·) := by
  have h := SearchEngine.runRounds_ok cfg env cfg.rounds 1
    { bestTrain := rootTrainObjective
      bestVal := rootValObjective
      noImprove := 0
      traces := []
      roundImps := [] }
    ⟨List.Pairwise.nil, List.Pairwise.nil,
      fun t ht => absurd ht (List.not_mem_nil t),
      fun t ht => absurd ht (List.not_mem_nil t)⟩
  exact ⟨h.1, h.2.1⟩

namespace SearchEngine

theorem trailLow_append_single (eps : ℚ) (l : List ℚ) (x : ℚ) :
    trailLow eps (l ++ [x]) =
      if x < eps then trailLow eps l + 1 else 0 := by
  unfold trailLow
  rw [List.reverse_append]
  simp [leadLow]

theorem leadLow_all_low (eps : ℚ) :
    ∀ (m r : List ℚ), (∀ x ∈ m, x < eps) →
      leadLow eps (m ++ r) = m.length + leadLow eps r := by
  intro m
  induction m with
  | nil => intro r _; simp
  | cons a t ih =>
      intro r hall
      have ha := hall a (List.mem_cons_self _ _)
      have ht : ∀ x ∈ t, x < eps := fun x hx => hall x (List.mem_cons_of_mem _ hx)
      simp only [List.cons_append, leadLow, if_pos ha, List.length_cons]
      show leadLow eps (t ++ r) + 1 = t.length + 1 + leadLow eps r
      rw [ih r ht]
      omega

theorem trailLow_append_all_low (eps : ℚ) (l1 l2 : List ℚ)
    (h : ∀ x ∈ l2, x < eps) :
    trailLow eps (l1 ++ l2) = l2.length + trailLow eps l1 := by
  unfold trailLow
  rw [List.reverse_append]
  rw [leadLow_all_low eps l2.reverse l1.reverse
    (fun x hx => h x (List.mem_reverse.mp hx))]
  rw [List.length_reverse]

theorem foldl_expansions_roundImps (env : ℕ → ℕ → ℚ × ℚ) (roundIdx : ℕ) :
    ∀ (l : List ℕ) (st : EngineState),
      (l.foldl (fun s e => processExpansion s (env roundIdx e)) st).roundImps =
        st.roundImps := by
  intro l
  induction l with
  | nil => intro st; rfl
  | cons e rest ih => intro st; exact ih _

theorem processRound_roundImps (cfg : SearchConfig) (env : ℕ → ℕ → ℚ × ℚ)
    (roundIdx : ℕ) (st : EngineState) :
    (processRound cfg env roundIdx st).roundImps =
      st.roundImps ++
        [((List.range cfg.expansions_per_round).foldl
          (fun s e => processExpansion s (env roundIdx e)) st).bestVal - st.bestVal] := by
  unfold processRound
  simp only [foldl_expansions_roundImps]

theorem runRounds_len (cfg : SearchConfig) (env : ℕ → ℕ → ℚ × ℚ) :
    ∀ (n roundIdx : ℕ) (st : EngineState),
      (runRounds cfg env n roundIdx st).roundImps.length ≤
        st.roundImps.length + n := by
  intro n
  induction n with
  | zero => intro _ st; exact le_refl _
  | succ m ih =>
      intro roundIdx st
      have hshape : (processRound cfg env roundIdx st).roundImps.length =
          st.roundImps.length + 1 := by
        rw [processRound_roundImps]
        simp
      simp only [runRounds]
      split
      · rw [hshape]; omega
      · have := ih (roundIdx + 1) (processRound cfg env roundIdx st)
        rw [hshape] at this
        omega

theorem runRounds_no_early_stop (cfg : SearchConfig) (env : ℕ → ℕ → ℚ × ℚ) :
    ∀ (n roundIdx : ℕ) (st : EngineState),
      st.noImprove = trailLow cfg.min_improvement st.roundImps →
      st.noImprove < cfg.patience →
      NoEarlyStop cfg.patience cfg.min_improvement st.roundImps →
      NoEarlyStop cfg.patience cfg.min_improvement
        (runRounds cfg env n roundIdx st).roundImps := by
  intro n
  induction n with
  | zero => intro _ st _ _ hnes; exact hnes
  | succ m ih =>
      intro roundIdx st hcnt hlt hnes
      set st' := processRound cfg env roundIdx st with hst'
      have himps : st'.roundImps = st.roundImps ++
          [((List.range cfg.expansions_per_round).foldl
            (fun s e => processExpansion s (env roundIdx e)) st).bestVal - st.bestVal] :=
        processRound_roundImps cfg env roundIdx st
      have hcnt' : st'.noImprove = trailLow cfg.min_improvement st'.roundImps := by
        rw [himps, trailLow_append_single, ← hcnt]
        rfl
      have hnes' : NoEarlyStop cfg.patience cfg.min_improvement st'.roundImps := by
        intro j hj
        rw [himps] at hj ⊢
        rw [List.length_append, List.length_cons, List.length_nil] at hj
        have hle : j + 1 ≤ st.roundImps.length := by omega
        rw [List.take_append_of_le_length hle]
        by_cases hjlt : j + 1 < st.roundImps.length
        · exact hnes j hjlt
        · have heq : j + 1 = st.roundImps.length := by omega
          rw [heq, List.take_length, ← hcnt]
          exact hlt
      simp only [runRounds]
      simp only [← hst']
      split
      · exact hnes'
      · rename_i hcont
        have hlt' : st'.noImprove < cfg.patience := by omega
        exact ih (roundIdx + 1) st' hcnt' hlt' hnes'

end SearchEngine

/-- C3: `AFlowXSearchEngine.optimize` executes at most `rounds` rounds,
and (for positive patience) stops no later than after `patience`
consecutive rounds in each of which the round-level increase of
`best_val_objective` is strictly below `min_improvement`: whenever
`patience` consecutive executed rounds starting at position `i` are all
below the threshold, the run has exactly `i + patience` rounds. -/
theorem search_termination_spec (cfg : SearchEngine.SearchConfig)
    (env : ℕ → ℕ → ℚ × ℚ) (rootTrainObjective rootValObjective : ℚ) :
    (SearchEngine.optimize cfg env rootTrainObjective rootValObjective).roundImps.length
      ≤ cfg.rounds
    ∧ (1 ≤ cfg.patience →
        ∀ i : ℕ,
        i + cfg.patience ≤
          (SearchEngine.optimize cfg env rootTrainObjective rootValObjective).roundImps.length →
        (∀ k, k < cfg.patience →
          (SearchEngine.optimize cfg env rootTrainObjective
            rootValObjective).roundImps.getD (i + k) 0 < cfg.min_improvement) →
        (SearchEngine.optimize cfg env rootTrainObjective rootValObjective).roundImps.length
          = i + cfg.patience) := by
  constructor
  · have h := SearchEngine.runRounds_len cfg env cfg.rounds 1
      { bestTrain := rootTrainObjective
        bestVal := rootValObjective
        noImprove := 0
        traces := []
        roundImps := [] }
    simpa [SearchEngine.optimize] using h
  · intro hpat i hlen hlow
    set l := (SearchEngine.optimize cfg env rootTrainObjective
      rootValObjective).roundImps with hl
    have hnes : SearchEngine.NoEarlyStop cfg.patience cfg.min_improvement l := by
      exact SearchEngine.runRounds_no_early_stop cfg env cfg.rounds 1
        { bestTrain := rootTrainObjective
          bestVal := rootValObjective
          noImprove := 0
          traces := []
          roundImps := [] }
        rfl (by show (0:ℕ) < cfg.patience; omega) (fun j hj => by simp at hj)
    by_contra hne
    have hlt : i + cfg.patience < l.length := by omega
    have hseg : ∀ x ∈ (l.drop i).take cfg.patience, x < cfg.min_improvement := by
      intro x hx
      obtain ⟨k, hk, hval⟩ := List.mem_iff_getElem.mp hx
      have hk' : k < cfg.patience := by
        have := List.length_take_le cfg.patience (l.drop i)
        omega
      have hik : i + k < l.length := by
        have := hk
        simp only [List.length_take, List.length_drop] at this
        omega
      have : ((l.drop i).take cfg.patience)[k] = l[i + k] := by
        rw [List.getElem_take, List.getElem_drop]
      rw [this] at hval
      have hgd := hlow k hk'
      rw [List.getD_eq_getElem l 0 hik] at hgd
      rw [hval] at hgd
      exact hgd
    have hsplit : l.take (i + cfg.patience) = l.take i ++ (l.drop i).take cfg.patience :=
      List.take_add l i cfg.patience
    have hlen2 : ((l.drop i).take cfg.patience).length = cfg.patience := by
      simp only [List.length_take, List.length_drop]
      omega
    have htr : SearchEngine.trailLow cfg.min_improvement (l.take (i + cfg.patience)) =
        cfg.patience + SearchEngine.trailLow cfg.min_improvement (l.take i) := by
      rw [hsplit, SearchEngine.trailLow_append_all_low _ _ _ hseg, hlen2]
    have hj := hnes (i + cfg.patience - 1) (by omega)
    rw [show i + cfg.patience - 1 + 1 = i + cfg.patience by omega] at hj
    rw [htr] at hj
    omega

/-- C3 witness: with one round, patience 1 and a flat objective oracle,
the run executes exactly `0 + 1` rounds. -/
theorem search_termination_spec_witness :
    (SearchEngine.optimize ⟨1, 1, 1, 1⟩ (fun _ _ => (0, 0)) 0 0).roundImps.length
      = 0 + 1 := by
  have h1 : SearchEngine.processRound ⟨1, 1, 1, 1⟩ (fun _ _ => (0, 0)) 1
      ⟨0, 0, 0, [], []⟩ =
      (⟨0, 0, 1, [⟨0, 0, 0, 0, 0⟩], [0]⟩ : SearchEngine.EngineState) := by
    norm_num [SearchEngine.processRound, SearchEngine.processExpansion,
      List.range_succ, List.range_zero]
  have hrun : SearchEngine.optimize ⟨1, 1, 1, 1⟩ (fun _ _ => (0, 0)) 0 0 =
      (⟨0, 0, 1, [⟨0, 0, 0, 0, 0⟩], [0]⟩ : SearchEngine.EngineState) := by
    show SearchEngine.runRounds ⟨1, 1, 1, 1⟩ (fun _ _ => (0, 0)) (0 + 1) 1
      ⟨0, 0, 0, [], []⟩ = _
    simp only [SearchEngine.runRounds]
    rw [h1]
    split <;> rfl
  refine (search_termination_spec ⟨1, 1, 1, 1⟩ (fun _ _ => (0, 0)) 0 0).2
    (le_refl 1) 0 ?_ ?_
  · rw [hrun]
    norm_num
  · intro k hk
    have hk1 : k < 1 := hk
    interval_cases k
    rw [hrun]
    norm_num

/-! ### Theorems: artifact path safety and round-trip (C8, C9) -/

namespace ArtifactStorePath

theorem splitOnSlash_ne_nil (l : List Char) : splitOnSlash l ≠ [] := by
  cases l with
  | nil => simp [splitOnSlash]
  | cons c rest =>
      simp only [splitOnSlash]
      split
      · simp
      · split
        · simp
        · simp

theorem no_slash_of_mem_splitOnSlash :
    ∀ (l : List Char) (seg : List Char), seg ∈ splitOnSlash l → '/' ∉ seg := by
  intro l
  induction l with
  | nil =>
      intro seg hseg
      simp only [splitOnSlash, List.mem_singleton] at hseg
      subst hseg
      simp
  | cons c rest ih =>
      intro seg hseg
      simp only [splitOnSlash] at hseg
      by_cases hc : c = '/'
      · rw [if_pos hc] at hseg
        rcases List.mem_cons.mp hseg with rfl | hseg
        · simp
        · exact ih seg hseg
      · rw [if_neg hc] at hseg
        cases hsp : splitOnSlash rest with
        | nil => exact absurd hsp (splitOnSlash_ne_nil rest)
        | cons s ss =>
            rw [hsp] at hseg
            rcases List.mem_cons.mp hseg with rfl | hseg
            · intro hmem
              rcases List.mem_cons.mp hmem with heq | hmem
              · exact hc heq.symm
              · exact ih s (hsp ▸ List.mem_cons_self _ _) hmem
            · exact ih seg (hsp ▸ List.mem_cons_of_mem _ hseg)

theorem chars_of_mem_splitOnSlash :
    ∀ (l seg : List Char) (c : Char), seg ∈ splitOnSlash l → c ∈ seg → c ∈ l := by
  intro l
  induction l with
  | nil =>
      intro seg c hseg hc
      simp only [splitOnSlash, List.mem_singleton] at hseg
      subst hseg
      exact absurd hc (List.not_mem_nil c)
  | cons a rest ih =>
      intro seg c hseg hc
      simp only [splitOnSlash] at hseg
      by_cases ha : a = '/'
      · rw [if_pos ha] at hseg
        rcases List.mem_cons.mp hseg with rfl | hseg
        · exact absurd hc (List.not_mem_nil c)
        · exact List.mem_cons_of_mem _ (ih seg c hseg hc)
      · rw [if_neg ha] at hseg
        cases hsp : splitOnSlash rest with
        | nil => exact absurd hsp (splitOnSlash_ne_nil rest)
        | cons s ss =>
            rw [hsp] at hseg
            rcases List.mem_cons.mp hseg with rfl | hseg
            · rcases List.mem_cons.mp hc with rfl | hc
              · exact List.mem_cons_self _ _
              · exact List.mem_cons_of_mem _
                  (ih s c (hsp ▸ List.mem_cons_self _ _) hc)
            · exact List.mem_cons_of_mem _
                (ih seg c (hsp ▸ List.mem_cons_of_mem _ hseg) hc)

theorem splitOnSlash_no_slash :
    ∀ (seg : List Char), '/' ∉ seg → splitOnSlash seg = [seg] := by
  intro seg
  induction seg with
  | nil => intro _; rfl
  | cons c rest ih =>
      intro h
      have hc : c ≠ '/' := fun hc => h (hc ▸ List.mem_cons_self _ _)
      have hrest : '/' ∉ rest := fun hr => h (List.mem_cons_of_mem _ hr)
      simp only [splitOnSlash, if_neg hc, ih hrest]

theorem splitOnSlash_append_slash :
    ∀ (seg t : List Char), '/' ∉ seg →
      splitOnSlash (seg ++ '/' :: t) = seg :: splitOnSlash t := by
  intro seg
  induction seg with
  | nil => intro t _; simp [splitOnSlash]
  | cons c rest ih =>
      intro t h
      have hc : c ≠ '/' := fun hc => h (hc ▸ List.mem_cons_self _ _)
      have hrest : '/' ∉ rest := fun hr => h (List.mem_cons_of_mem _ hr)
      have hih := ih t hrest
      simp only [List.cons_append, splitOnSlash, if_neg hc]
      rw [show rest.append ('/' :: t) = rest ++ '/' :: t from rfl, hih]

theorem joinSlash_splitOnSlash : ∀ (l : List Char), joinSlash (splitOnSlash l) = l := by
  intro l
  induction l with
  | nil => rfl
  | cons c rest ih =>
      simp only [splitOnSlash]
      by_cases hc : c = '/'
      · rw [if_pos hc]
        cases hsp : splitOnSlash rest with
        | nil => exact absurd hsp (splitOnSlash_ne_nil rest)
        | cons s ss =>
            rw [hsp] at ih
            simp only [joinSlash, List.nil_append]
            rw [ih, hc]
      · rw [if_neg hc]
        cases hsp : splitOnSlash rest with
        | nil => exact absurd hsp (splitOnSlash_ne_nil rest)
        | cons s ss =>
            rw [hsp] at ih
            cases ss with
            | nil => simp only [joinSlash] at ih ⊢; rw [ih]
            | cons s2 ss2 =>
                simp only [joinSlash] at ih ⊢
                rw [List.cons_append, ih]

theorem splitOnSlash_joinSlash :
    ∀ (comps : List (List Char)), comps ≠ [] →
      (∀ seg ∈ comps, '/' ∉ seg) →
      splitOnSlash (joinSlash comps) = comps := by
  intro comps
  induction comps with
  | nil => intro h _; exact absurd rfl h
  | cons seg rest ih =>
      intro _ hall
      have hseg : '/' ∉ seg := hall seg (List.mem_cons_self _ _)
      cases rest with
      | nil => simp only [joinSlash]; exact splitOnSlash_no_slash seg hseg
      | cons s2 rest2 =>
          have hrest : ∀ x ∈ s2 :: rest2, '/' ∉ x :=
            fun x hx => hall x (List.mem_cons_of_mem _ hx)
          simp only [joinSlash]
          rw [splitOnSlash_append_slash seg _ hseg, ih (by simp) hrest]

theorem chars_of_mem_joinSlash :
    ∀ (comps : List (List Char)) (c : Char), c ∈ joinSlash comps →
      c = '/' ∨ ∃ seg ∈ comps, c ∈ seg := by
  intro comps
  induction comps with
  | nil => intro c hc; exact absurd hc (List.not_mem_nil c)
  | cons seg rest ih =>
      intro c hc
      cases rest with
      | nil =>
          simp only [joinSlash] at hc
          exact Or.inr ⟨seg, List.mem_cons_self _ _, hc⟩
      | cons s2 rest2 =>
          simp only [joinSlash] at hc
          rcases List.mem_append.mp hc with hin | hin
          · exact Or.inr ⟨seg, List.mem_cons_self _ _, hin⟩
          · rcases List.mem_cons.mp hin with rfl | hin
            · exact Or.inl rfl
            · rcases ih c hin with h | ⟨s, hs, hcs⟩
              · exact Or.inl h
              · exact Or.inr ⟨s, List.mem_cons_of_mem _ hs, hcs⟩

theorem joinSlash_kept_ne_dot (comps : List (List Char))
    (hne : comps ≠ []) (hkeep : ∀ seg ∈ comps, keepComponent seg = true) :
    joinSlash comps ≠ ['.'] ∧ joinSlash comps ≠ [] := by
  cases comps with
  | nil => exact absurd rfl hne
  | cons seg rest =>
      have hs := hkeep seg (List.mem_cons_self _ _)
      simp only [keepComponent, Bool.not_eq_eq_eq_not, Bool.not_true,
        Bool.or_eq_false_iff] at hs
      have hsegne : seg ≠ [] := by
        intro h
        rw [h] at hs
        simp [List.isEmpty] at hs
      have hsegdot : seg ≠ ['.'] := by
        intro h
        rw [h] at hs
        simp at hs
      cases rest with
      | nil => exact ⟨by simpa [joinSlash] using hsegdot, by simpa [joinSlash] using hsegne⟩
      | cons s2 rest2 =>
          simp only [joinSlash]
          cases seg with
          | nil => exact absurd rfl hsegne
          | cons c cs =>
              constructor
              · intro h
                have hlen := congrArg List.length h
                simp at hlen
              · simp

theorem replaceBackslashes_no_backslash (l : List Char) :
    '\\' ∉ replaceBackslashes l := by
  intro h
  obtain ⟨c, _, hc⟩ := List.mem_map.mp h
  by_cases hb : c = '\\'
  · rw [if_pos hb] at hc
    exact absurd hc (by decide)
  · rw [if_neg hb] at hc
    exact hb hc

theorem replaceBackslashes_eq_self (l : List Char) (h : '\\' ∉ l) :
    replaceBackslashes l = l := by
  induction l with
  | nil => rfl
  | cons c rest ih =>
      have hc : c ≠ '\\' := fun hc => h (hc ▸ List.mem_cons_self _ _)
      have hrest : '\\' ∉ rest := fun hr => h (List.mem_cons_of_mem _ hr)
      simp only [replaceBackslashes, List.map_cons, if_neg hc]
      rw [show List.map (fun c => if c = '\\' then '/' else c) rest =
        replaceBackslashes rest from rfl, ih hrest]

end ArtifactStorePath

namespace ArtifactStorePath

/-- Everything `normalize_artifact_path` guarantees about a successful
result: non-empty, relative, no empty/`.`/`..` segments, and no
backslashes (used for idempotence). -/
theorem normalize_ok_props (p n : String)
    (h : normalize_artifact_path p = Except.ok n) :
    n.data ≠ []
    ∧ n.data.head? ≠ some '/'
    ∧ (∀ seg ∈ splitOnSlash n.data, badSegment seg = false)
    ∧ '\\' ∉ n.data := by
  unfold normalize_artifact_path at h
  split_ifs at h with h1 h2 h3 h4
  rcases h with ⟨⟩
  have hne : posixNormalized (replaceBackslashes (stripChars p.data)) ≠ [] := by
    intro he
    exact h3 (Or.inr he)
  have hsegs : ∀ seg ∈ splitOnSlash
      (posixNormalized (replaceBackslashes (stripChars p.data))),
      badSegment seg = false := by
    intro seg hseg
    by_contra hbad
    simp only [Bool.not_eq_false] at hbad
    exact h4 (List.any_eq_true.mpr ⟨seg, hseg, hbad⟩)
  refine ⟨hne, ?_, hsegs, ?_⟩
  · intro hhead
    cases hx : posixNormalized (replaceBackslashes (stripChars p.data)) with
    | nil => exact hne hx
    | cons c rest =>
        rw [hx] at hhead
        simp only [List.head?] at hhead
        have hc : c = '/' := by injection hhead
        have hmem : ([] : List Char) ∈ splitOnSlash
            (posixNormalized (replaceBackslashes (stripChars p.data))) := by
          rw [hx, hc]
          simp only [splitOnSlash, if_pos rfl]
          exact List.mem_cons_self _ _
        have := hsegs [] hmem
        simp [badSegment] at this
  · intro hmem
    have hcomps : (splitOnSlash (replaceBackslashes
        (stripChars p.data))).filter keepComponent ≠ [] := by
      intro hc
      apply h3
      left
      simp only [posixNormalized, hc]
      rfl
    have hx : posixNormalized (replaceBackslashes (stripChars p.data)) =
        joinSlash ((splitOnSlash (replaceBackslashes
          (stripChars p.data))).filter keepComponent) := by
      simp only [posixNormalized, if_neg hcomps]
    rw [hx] at hmem
    rcases chars_of_mem_joinSlash _ _ hmem with heq | ⟨seg, hseg, hcs⟩
    · exact absurd heq (by decide)
    · have hsub : seg ∈ splitOnSlash (replaceBackslashes (stripChars p.data)) :=
        List.mem_of_mem_filter hseg
      have := chars_of_mem_splitOnSlash _ seg '\\' hsub hcs
      exact replaceBackslashes_no_backslash _ this

/-- Normalization is idempotent on outputs that carry no leading or
trailing whitespace. -/
theorem normalize_fixpoint (p n : String)
    (h : normalize_artifact_path p = Except.ok n)
    (hstrip : stripChars n.data = n.data) :
    normalize_artifact_path n = Except.ok n := by
  obtain ⟨hne, hhead, hsegs, hbs⟩ := normalize_ok_props p n h
  have hraw : replaceBackslashes (stripChars n.data) = n.data := by
    rw [hstrip]
    exact replaceBackslashes_eq_self n.data hbs
  have hkeep : ∀ seg ∈ splitOnSlash n.data, keepComponent seg = true := by
    intro seg hseg
    have := hsegs seg hseg
    simp only [badSegment, Bool.or_eq_false_iff] at this
    simp [keepComponent, this.1.1, this.1.2]
  have hfilter : (splitOnSlash n.data).filter keepComponent = splitOnSlash n.data :=
    List.filter_eq_self.mpr hkeep
  have hpos : posixNormalized n.data = n.data := by
    simp only [posixNormalized, hfilter]
    rw [if_neg (splitOnSlash_ne_nil n.data)]
    exact joinSlash_splitOnSlash n.data
  unfold normalize_artifact_path
  rw [hraw, hpos]
  rw [if_neg hne, if_neg (fun hx => hhead hx)]
  have hdot : ¬ (n.data = ['.'] ∨ n.data = []) := by
    intro hx
    rcases hx with hx | hx
    · have hmem : ['.'] ∈ splitOnSlash n.data := by
        rw [hx]
        simp [splitOnSlash]
      have := hsegs ['.'] hmem
      simp [badSegment] at this
    · exact hne hx
  rw [if_neg hdot]
  have hany : (splitOnSlash n.data).any badSegment = false := by
    rw [List.any_eq_false]
    intro seg hseg
    simp [hsegs seg hseg]
  rw [if_neg (by rw [hany]; exact fun hx => Bool.noConfusion hx)]

end ArtifactStorePath

/-- C8 (amended): every successfully normalized artifact path is
non-empty, relative, and free of empty/`.`/`..` segments; an input that
is empty (after stripping), absolute, or contains a `..` segment is
rejected with a validation error; in `LocalArtifactStore.put` the
rejection happens before any bytes are written (the file state is
returned unchanged).  (`.` and empty segments in the input are *removed*
by `PurePosixPath` normalization rather than rejected.) -/
theorem path_safety_amended_spec :
    (∀ (p n : String), ArtifactStorePath.normalize_artifact_path p = Except.ok n →
      n.data ≠ [] ∧ n.data.head? ≠ some '/'
      ∧ ∀ seg ∈ ArtifactStorePath.splitOnSlash n.data,
          ArtifactStorePath.badSegment seg = false)
    ∧ (∀ p : String, stripChars p.data = [] →
        ArtifactStorePath.normalize_artifact_path p =
          Except.error "artifact path must not be empty")
    ∧ (∀ p : String,
        (ArtifactStorePath.replaceBackslashes (stripChars p.data)).head? = some '/' →
        ArtifactStorePath.normalize_artifact_path p =
          Except.error "artifact path must be relative")
    ∧ (∀ p : String,
        ['.', '.'] ∈ ArtifactStorePath.splitOnSlash
          (ArtifactStorePath.replaceBackslashes (stripChars p.data)) →
        ∃ e, ArtifactStorePath.normalize_artifact_path p = Except.error e)
    ∧ (∀ (root : String) (st : LocalArtifactStore.FileState) (p : String)
        (payload : List ℕ) (e : String),
        ArtifactStorePath.normalize_artifact_path p = Except.error e →
        LocalArtifactStore.put root st p payload = (Except.error e, st)) := by
  refine ⟨?_, ?_, ?_, ?_, ?_⟩
  · intro p n h
    obtain ⟨h1, h2, h3, _⟩ := ArtifactStorePath.normalize_ok_props p n h
    exact ⟨h1, h2, h3⟩
  · intro p hstrip
    unfold ArtifactStorePath.normalize_artifact_path
    rw [hstrip]
    rfl
  · intro p habs
    unfold ArtifactStorePath.normalize_artifact_path
    have hne : ArtifactStorePath.replaceBackslashes (stripChars p.data) ≠ [] := by
      intro he
      rw [he] at habs
      exact Option.noConfusion habs
    rw [if_neg hne, if_pos habs]
  · intro p hdd
    unfold ArtifactStorePath.normalize_artifact_path
    split_ifs with h1 h2 h3 h4
    · exact ⟨_, rfl⟩
    · exact ⟨_, rfl⟩
    · exact ⟨_, rfl⟩
    · exact ⟨_, rfl⟩
    · exfalso
      apply h4
      have hkeepdd : ArtifactStorePath.keepComponent ['.', '.'] = true := by decide
      have hmemf : ['.', '.'] ∈ (ArtifactStorePath.splitOnSlash
          (ArtifactStorePath.replaceBackslashes (stripChars p.data))).filter
          ArtifactStorePath.keepComponent :=
        List.mem_filter.mpr ⟨hdd, hkeepdd⟩
      have hcomps : (ArtifactStorePath.splitOnSlash
          (ArtifactStorePath.replaceBackslashes (stripChars p.data))).filter
          ArtifactStorePath.keepComponent ≠ [] := by
        intro hc
        rw [hc] at hmemf
        exact List.not_mem_nil _ hmemf
      have hslashfree : ∀ seg ∈ (ArtifactStorePath.splitOnSlash
          (ArtifactStorePath.replaceBackslashes (stripChars p.data))).filter
          ArtifactStorePath.keepComponent, '/' ∉ seg := by
        intro seg hseg
        exact ArtifactStorePath.no_slash_of_mem_splitOnSlash _ seg
          (List.mem_of_mem_filter hseg)
      have hpos : ArtifactStorePath.posixNormalized
          (ArtifactStorePath.replaceBackslashes (stripChars p.data)) =
          ArtifactStorePath.joinSlash ((ArtifactStorePath.splitOnSlash
            (ArtifactStorePath.replaceBackslashes (stripChars p.data))).filter
            ArtifactStorePath.keepComponent) := by
        simp only [ArtifactStorePath.posixNormalized, if_neg hcomps]
      rw [hpos, ArtifactStorePath.splitOnSlash_joinSlash _ hcomps hslashfree]
      exact List.any_eq_true.mpr ⟨['.', '.'], hmemf, by decide⟩
  · intro root st p payload e h
    unfold LocalArtifactStore.put
    rw [h]

/-- C8 counterexample: the claim says any input containing an empty or
`.` segment raises a validation error, but `PurePosixPath` normalization
silently removes them: both `"a/./b"` and `"a//b"` normalize to
`"a/b"`. -/
theorem path_safety_counterexample :
    ArtifactStorePath.normalize_artifact_path "a/./b" = Except.ok "a/b"
    ∧ ArtifactStorePath.normalize_artifact_path "a//b" = Except.ok "a/b" := by
  constructor
  · decide
  · decide

/-- C8 witness: the amended facts at a concrete path and a concrete
rejected write. -/
theorem path_safety_amended_spec_witness :
    ("agents/run/workflow.yml" : String).data ≠ []
    ∧ ("agents/run/workflow.yml" : String).data.head? ≠ some '/'
    ∧ LocalArtifactStore.put "/data/artifacts" [] "../etc/passwd" [1]
      = (Except.error "artifact path contains illegal traversal segment", []) := by
  have hok : ArtifactStorePath.normalize_artifact_path "agents/run/workflow.yml" =
      Except.ok "agents/run/workflow.yml" := by decide
  have h1 := path_safety_amended_spec.1 "agents/run/workflow.yml"
    "agents/run/workflow.yml" hok
  refine ⟨h1.1, h1.2.1, ?_⟩
  exact path_safety_amended_spec.2.2.2.2 "/data/artifacts" [] "../etc/passwd" [1]
    "artifact path contains illegal traversal segment" (by decide)

namespace ArtifactStorePath

/-- The first `"://"` in `"memory://" ++ b` is the one after the scheme,
whatever `b` is. -/
theorem findSep_memory (b : List Char) :
    findSep [':', '/', '/'] (("memory://" : String).data ++ b) =
      some (("memory" : String).data, b) := by
  show findSep [':', '/', '/']
    ('m' :: 'e' :: 'm' :: 'o' :: 'r' :: 'y' :: ':' :: '/' :: '/' :: b) =
    some (['m', 'e', 'm', 'o', 'r', 'y'], b)
  simp [findSep, List.isPrefixOf]

theorem parse_memory_uri (n : String)
    (hfix : normalize_artifact_path n = Except.ok n) :
    parse_artifact_uri ("memory://" ++ n) = Except.ok ("memory", n) := by
  unfold parse_artifact_uri
  have hdata : ("memory://" ++ n : String).data =
      ("memory://" : String).data ++ n.data := by
    rfl
  rw [hdata, findSep_memory n.data]
  have hfix' : normalize_artifact_path (String.mk n.data) = Except.ok n := hfix
  simp only [hfix']
  rw [if_neg (by decide)]

end ArtifactStorePath

/-- C9 (amended): for every valid relative path `p` and payload `b`
whose normalized form `n` carries no leading or trailing whitespace,
`put(p, b)` stores `b` under `n`, returns a record with checksum the
SHA-256 hex digest of `b` and URI `memory://n` (the re-normalization
inside `build_uri` fixes `n`), and `get` on that URI yields exactly
`b`.  When `n` does begin or end with whitespace the round-trip breaks:
`build_uri` re-normalizes with `str.strip`, so the returned URI does
not address the stored key. -/
theorem checksum_roundtrip_amended_spec (st : InMemoryArtifactStore.ObjectState)
    (p : String) (payload : List ℕ) (n : String)
    (h : ArtifactStorePath.normalize_artifact_path p = Except.ok n)
    (hstrip : stripChars n.data = n.data) :
    (InMemoryArtifactStore.put st p payload).1 =
      Except.ok
        { uri := "memory://" ++ n
          checksum := compute_sha256 payload
          size_bytes := payload.length
          local_path := none }
    ∧ (InMemoryArtifactStore.put st p payload).2 = (n, payload) :: st
    ∧ InMemoryArtifactStore.get ((n, payload) :: st) ("memory://" ++ n) =
        Except.ok payload := by
  have hfix := ArtifactStorePath.normalize_fixpoint p n h hstrip
  have hbu : build_uri "memory" n = Except.ok ("memory://" ++ n) := by
    unfold build_uri
    rw [hfix]
    rfl
  refine ⟨?_, ?_, ?_⟩
  · simp only [InMemoryArtifactStore.put, h, hbu]
  · simp only [InMemoryArtifactStore.put, h, hbu]
  · unfold InMemoryArtifactStore.get
    rw [ArtifactStorePath.parse_memory_uri n hfix]
    simp [List.lookup]

/-- C9 counterexample: `"a /"` is a valid path (it normalizes to
`"a "`, with a trailing space), and `put` stores the payload under
`"a "`; but `build_uri` re-normalizes the path, so the returned URI is
`memory://a` — whose `get` looks up `"a"`, misses the stored key, and
fails with `FileNotFoundError` instead of returning the payload. -/
theorem checksum_roundtrip_counterexample :
    ArtifactStorePath.normalize_artifact_path "a /" = Except.ok "a "
    ∧ (InMemoryArtifactStore.put [] "a /" [1, 2, 3]).1 =
      Except.ok
        { uri := "memory://a"
          checksum := compute_sha256 [1, 2, 3]
          size_bytes := 3
          local_path := none }
    ∧ (InMemoryArtifactStore.put [] "a /" [1, 2, 3]).2 = [("a ", [1, 2, 3])]
    ∧ InMemoryArtifactStore.get [("a ", [1, 2, 3])] "memory://a" =
      Except.error "FileNotFoundError: memory://a" := by
  have hok : ArtifactStorePath.normalize_artifact_path "a /" = Except.ok "a " := by
    decide
  have hbu : build_uri "memory" "a " = Except.ok "memory://a" := by
    decide
  refine ⟨hok, ?_, by decide, by decide⟩
  simp [InMemoryArtifactStore.put, hok, hbu]

/-- C9 witness: the round-trip at a concrete whitespace-free path and
payload, with both hypotheses of the amended theorem discharged. -/
theorem checksum_roundtrip_amended_spec_witness :
    (InMemoryArtifactStore.put [] "agents/demo/workflow.yml" [1, 2, 3]).1 =
      Except.ok
        { uri := "memory://agents/demo/workflow.yml"
          checksum := compute_sha256 [1, 2, 3]
          size_bytes := 3
          local_path := none }
    ∧ InMemoryArtifactStore.get [("agents/demo/workflow.yml", [1, 2, 3])]
        "memory://agents/demo/workflow.yml" = Except.ok [1, 2, 3] := by
  have h := checksum_roundtrip_amended_spec [] "agents/demo/workflow.yml" [1, 2, 3]
    "agents/demo/workflow.yml" (by decide) (by decide)
  exact ⟨h.1, h.2.2⟩

/-! ### Theorems: dataset synthesizer (C1) -/

namespace Synth

/-- One case is produced per question. -/
theorem buildCases_length (nm : String) (r : String → String) (ints : List TaskIntent) :
    ∀ (idx : ℕ) (qs : List String), (buildCases nm r ints idx qs).length = qs.length := by
  intro idx qs
  induction qs generalizing idx with
  | nil => rfl
  | cons q rest ih => simp [buildCases, ih]

/-- The case ids are `name-(idx+1)` for consecutive indices. -/
theorem buildCases_ids (nm : String) (r : String → String) (ints : List TaskIntent) :
    ∀ (idx : ℕ) (qs : List String),
      (buildCases nm r ints idx qs).map (fun c => c.case_id) =
        (List.range' (idx + 1) qs.length).map (fun i => nm ++ "-" ++ Nat.repr i) := by
  intro idx qs
  induction qs generalizing idx with
  | nil => rfl
  | cons q rest ih =>
      simp only [buildCases, List.map_cons, List.length_cons, List.range'_succ]
      rw [ih (idx + 1)]
      rfl

/-- Decimal rendering is injective below 40 (every index the synthesizer
can produce is at most 30). -/
theorem reprInjOn40 : ∀ i : ℕ, i < 40 → ∀ j : ℕ, j < 40 → Nat.repr i = Nat.repr j → i = j := by
  decide

/-- `name ++ "-" ++ repr i` determines `i` for indices below 40. -/
theorem caseId_inj (nm : String) {i j : ℕ} (hi : i < 40) (hj : j < 40)
    (h : nm ++ "-" ++ Nat.repr i = nm ++ "-" ++ Nat.repr j) : i = j := by
  have hdata := congrArg String.data h
  simp only [String.data_append] at hdata
  have hrepr : (Nat.repr i).data = (Nat.repr j).data := List.append_cancel_left hdata
  exact reprInjOn40 i hi j hj (congrArg String.mk hrepr)

/-- The case ids of a synthesized case list are distinct (the list is
short, so all indices stay below 40). -/
theorem synth_ids_nodup (nm : String) (r : String → String) (ints : List TaskIntent)
    (qs : List String) (hlen : qs.length ≤ 36) :
    ((buildCases nm r ints 0 qs).map (fun c => c.case_id)).Nodup := by
  rw [buildCases_ids]
  apply List.Nodup.map_on
  · intro x hx y hy hxy
    rw [List.mem_range'_1] at hx hy
    exact caseId_inj nm (by omega) (by omega) hxy
  · exact List.nodup_range' 1 qs.length

/-- Pulling the `j`-th element to the front is a permutation. -/
theorem getD_cons_eraseIdx_perm {α : Type} [Inhabited α] :
    ∀ (l : List α) (j : ℕ), j < l.length →
      List.Perm (l.getD j default :: l.eraseIdx j) l := by
  intro l
  induction l with
  | nil => intro j hj; simp at hj
  | cons a rest ih =>
      intro j hj
      cases j with
      | zero => exact List.Perm.refl _
      | succ j =>
          have hj' : j < rest.length := by
            simp only [List.length_cons] at hj
            omega
          show List.Perm (rest.getD j default :: a :: rest.eraseIdx j) (a :: rest)
          exact (List.Perm.swap a (rest.getD j default) (rest.eraseIdx j)).trans
            ((ih j hj').cons a)

/-- The shuffle returns a permutation of its input for every choice
stream. -/
theorem shuffleGo_perm (g : ℕ → ℕ) :
    ∀ (fuel pos : ℕ) (l : List SyntheticCase), List.Perm (shuffleGo g fuel pos l) l := by
  intro fuel
  induction fuel with
  | zero => intro pos l; exact List.Perm.refl l
  | succ fuel ih =>
      intro pos l
      cases l with
      | nil => exact List.Perm.refl []
      | cons c rest =>
          show List.Perm
            ((c :: rest).getD (g pos % (c :: rest).length) default ::
              shuffleGo g fuel (pos + 1) ((c :: rest).eraseIdx (g pos % (c :: rest).length)))
            (c :: rest)
          have hj : g pos % (c :: rest).length < (c :: rest).length :=
            Nat.mod_lt _ (Nat.succ_pos _)
          exact ((ih (pos + 1) _).cons _).trans (getD_cons_eraseIdx_perm _ _ hj)

/-- When all three slices are non-empty no rebalance branch fires. -/
theorem sliceAndRebalance_no_rebalance (sh : List SyntheticCase)
    (h1 : sh.take (trainEnd sh.length) ≠ [])
    (h2 : (sh.drop (trainEnd sh.length)).take (valCut sh.length) ≠ [])
    (h3 : sh.drop (trainEnd sh.length + valCut sh.length) ≠ []) :
    sliceAndRebalance sh =
      (sh.take (trainEnd sh.length),
        (sh.drop (trainEnd sh.length)).take (valCut sh.length),
        sh.drop (trainEnd sh.length + valCut sh.length)) := by
  have hA : ¬(sh.take (trainEnd sh.length) = [] ∧ sh ≠ []) := fun hc => h1 hc.1
  have hB : ¬((sh.drop (trainEnd sh.length)).take (valCut sh.length) = [] ∧
      1 < sh.length) := fun hc => h2 hc.1
  have hC : ¬(sh.drop (trainEnd sh.length + valCut sh.length) = [] ∧ 2 < sh.length) :=
    fun hc => h3 hc.1
  simp only [sliceAndRebalance, if_neg hA, if_neg hB, if_neg hC]

/-- The slice-and-rebalance behaviour of `_split_cases` on a list with
distinct case ids: every split is non-empty from three cases on, and
for any length other than 1 and 4 the three splits partition the list
(at lengths 1 and 4 the val rebalance duplicates an element that stays
in another split). -/
theorem sliceAndRebalance_parts (sh : List SyntheticCase)
    (hnd : (sh.map (fun c => c.case_id)).Nodup) :
    (3 ≤ sh.length →
        (sliceAndRebalance sh).1 ≠ [] ∧ (sliceAndRebalance sh).2.1 ≠ [] ∧
          (sliceAndRebalance sh).2.2 ≠ []) ∧
      (sh.length ≠ 1 → sh.length ≠ 4 →
        (sliceAndRebalance sh).1.length + (sliceAndRebalance sh).2.1.length +
              (sliceAndRebalance sh).2.2.length = sh.length ∧
          List.Disjoint ((sliceAndRebalance sh).1.map (fun c => c.case_id))
              ((sliceAndRebalance sh).2.1.map (fun c => c.case_id)) ∧
            List.Disjoint ((sliceAndRebalance sh).1.map (fun c => c.case_id))
              ((sliceAndRebalance sh).2.2.map (fun c => c.case_id)) ∧
            List.Disjoint ((sliceAndRebalance sh).2.1.map (fun c => c.case_id))
              ((sliceAndRebalance sh).2.2.map (fun c => c.case_id))) := by
  by_cases h5 : 5 ≤ sh.length
  · -- uniform regime: 3 ≤ train, 1 ≤ val, 1 ≤ test slice lengths
    have hcuts : 3 ≤ trainEnd sh.length ∧ 1 ≤ valCut sh.length ∧
        trainEnd sh.length + valCut sh.length < sh.length := by
      simp only [trainEnd, valCut]
      omega
    obtain ⟨ht3, hv1, htv⟩ := hcuts
    have l1 : (sh.take (trainEnd sh.length)).length = trainEnd sh.length := by
      rw [List.length_take]
      omega
    have l2 : ((sh.drop (trainEnd sh.length)).take (valCut sh.length)).length =
        valCut sh.length := by
      rw [List.length_take, List.length_drop]
      omega
    have l3 : (sh.drop (trainEnd sh.length + valCut sh.length)).length =
        sh.length - (trainEnd sh.length + valCut sh.length) := by
      rw [List.length_drop]
    have h1 : sh.take (trainEnd sh.length) ≠ [] := by
      refine List.length_pos.mp ?_
      rw [l1]
      omega
    have h2 : (sh.drop (trainEnd sh.length)).take (valCut sh.length) ≠ [] := by
      refine List.length_pos.mp ?_
      rw [l2]
      omega
    have h3 : sh.drop (trainEnd sh.length + valCut sh.length) ≠ [] := by
      refine List.length_pos.mp ?_
      rw [l3]
      omega
    rw [sliceAndRebalance_no_rebalance sh h1 h2 h3]
    have hconcat : sh = sh.take (trainEnd sh.length) ++
        ((sh.drop (trainEnd sh.length)).take (valCut sh.length) ++
          (sh.drop (trainEnd sh.length)).drop (valCut sh.length)) := by
      rw [List.take_append_drop, List.take_append_drop]
    have hdd : (sh.drop (trainEnd sh.length)).drop (valCut sh.length) =
        sh.drop (trainEnd sh.length + valCut sh.length) :=
      List.drop_drop (valCut sh.length) (trainEnd sh.length) sh
    have hmap : sh.map (fun c => c.case_id) =
        (sh.take (trainEnd sh.length)).map (fun c => c.case_id) ++
          (((sh.drop (trainEnd sh.length)).take (valCut sh.length)).map
              (fun c => c.case_id) ++
            (sh.drop (trainEnd sh.length + valCut sh.length)).map (fun c => c.case_id)) := by
      conv_lhs => rw [hconcat]
      rw [List.map_append, List.map_append, hdd]
    rw [hmap] at hnd
    obtain ⟨-, nBC, dABC⟩ := List.nodup_append.mp hnd
    obtain ⟨dAB, dAC⟩ := List.disjoint_append_right.mp dABC
    obtain ⟨-, -, dBC⟩ := List.nodup_append.mp nBC
    refine ⟨fun _ => ⟨h1, h2, h3⟩, fun _ _ => ⟨?_, dAB, dAC, dBC⟩⟩
    rw [l1, l2, l3]
    omega
  · -- at most four elements: handle each shape explicitly
    rcases sh with _ | ⟨a, _ | ⟨b, _ | ⟨c, _ | ⟨d, _ | ⟨e, tl⟩⟩⟩⟩⟩
    · refine ⟨fun h3 => by simp at h3, fun _ _ => ?_⟩
      have hE : sliceAndRebalance ([] : List SyntheticCase) = ([], [], []) := rfl
      rw [hE]
      refine ⟨rfl, ?_, ?_, ?_⟩ <;> · intro x hx hy; simp at hx
    · exact ⟨fun h3 => by simp at h3, fun h1 _ => absurd rfl h1⟩
    · simp only [List.map_cons, List.map_nil, List.nodup_cons, List.mem_singleton,
        List.not_mem_nil, not_false_eq_true, and_true, List.nodup_nil] at hnd
      have hE : sliceAndRebalance [a, b] = ([a], [b], []) := by
        simp [sliceAndRebalance, trainEnd, valCut]
      refine ⟨fun h3 => by simp at h3, fun _ _ => ?_⟩
      rw [hE]
      refine ⟨rfl, ?_, by simp, by simp⟩
      intro x hx hy
      simp only [List.map_cons, List.map_nil, List.mem_singleton] at hx hy
      subst hx
      exact hnd hy
    · simp only [List.map_cons, List.map_nil, List.nodup_cons, List.mem_cons,
        List.mem_singleton, List.not_mem_nil, or_false, not_or, not_false_eq_true,
        and_true, List.nodup_nil] at hnd
      obtain ⟨⟨hab, hac⟩, hbc⟩ := hnd
      have hcb : (c.case_id != b.case_id) = true := by
        simp only [bne_iff_ne]
        exact fun h => hbc h.symm
      have hE : sliceAndRebalance [a, b, c] = ([a], [b], [c]) := by
        simp [sliceAndRebalance, trainEnd, valCut, hcb]
      refine ⟨fun _ => ?_, fun _ _ => ?_⟩
      · rw [hE]
        exact ⟨by simp, by simp, by simp⟩
      · rw [hE]
        refine ⟨rfl, ?_, ?_, ?_⟩
        · intro x hx hy
          simp only [List.map_cons, List.map_nil, List.mem_singleton] at hx hy
          subst hx
          exact hab hy
        · intro x hx hy
          simp only [List.map_cons, List.map_nil, List.mem_singleton] at hx hy
          subst hx
          exact hac hy
        · intro x hx hy
          simp only [List.map_cons, List.map_nil, List.mem_singleton] at hx hy
          subst hx
          exact hbc hy
    · simp only [List.map_cons, List.map_nil, List.nodup_cons, List.mem_cons,
        List.mem_singleton, List.not_mem_nil, or_false, not_or, not_false_eq_true,
        and_true, List.nodup_nil] at hnd
      obtain ⟨⟨hab, hac, had⟩, ⟨hbc, hbd⟩, hcd⟩ := hnd
      have hcb : (c.case_id != b.case_id) = true := by
        simp only [bne_iff_ne]
        exact fun h => hbc h.symm
      have hdb : (d.case_id != b.case_id) = true := by
        simp only [bne_iff_ne]
        exact fun h => hbd h.symm
      have hE : sliceAndRebalance [a, b, c, d] = ([a, b], [b], [c, d]) := by
        simp [sliceAndRebalance, trainEnd, valCut, hcb, hdb]
      refine ⟨fun _ => ?_, fun _ h4 => absurd rfl h4⟩
      rw [hE]
      exact ⟨by simp, by simp, by simp⟩
    · exact absurd (by simp : 5 ≤ (a :: b :: c :: d :: e :: tl).length) h5

end Synth

/-- C1 (amended): for every choice stream, resolver, task description,
dataset name, requested size, and non-empty schema label/relation
lists, the synthesized dataset has `min(bounded_size, #deduplicated
questions)` cases — hence at most 30, but fewer than 6 when
deduplication collapses the question pool; whenever it has at least 3
cases the train/val/test splits are all non-empty; and whenever the
case count is neither 1 nor 4 the splits partition the cases
(`|train|+|val|+|test| = |cases|` with pairwise-disjoint case ids). -/
theorem dataset_synthesis_amended_spec (g : ℕ → ℕ) (resolver : String → String)
    (task_desc dataset_name : String) (size : ℕ) (labels relations : List String)
    (hlab : labels ≠ []) (hrel : relations ≠ []) :
    (Synth.synthesize g resolver task_desc dataset_name size labels relations).cases.length =
        min (Synth.bounded_size size)
          (Synth.questionPool g task_desc size labels relations).2.length ∧
      (Synth.synthesize g resolver task_desc dataset_name size labels
          relations).cases.length ≤ 30 ∧
      (3 ≤ (Synth.synthesize g resolver task_desc dataset_name size labels
            relations).cases.length →
        (Synth.synthesize g resolver task_desc dataset_name size labels
            relations).train_cases ≠ [] ∧
          (Synth.synthesize g resolver task_desc dataset_name size labels
              relations).val_cases ≠ [] ∧
            (Synth.synthesize g resolver task_desc dataset_name size labels
                relations).test_cases ≠ []) ∧
      ((Synth.synthesize g resolver task_desc dataset_name size labels
            relations).cases.length ≠ 1 →
        (Synth.synthesize g resolver task_desc dataset_name size labels
            relations).cases.length ≠ 4 →
        (Synth.synthesize g resolver task_desc dataset_name size labels
              relations).train_cases.length +
              (Synth.synthesize g resolver task_desc dataset_name size labels
                relations).val_cases.length +
              (Synth.synthesize g resolver task_desc dataset_name size labels
                relations).test_cases.length =
            (Synth.synthesize g resolver task_desc dataset_name size labels
              relations).cases.length ∧
          List.Disjoint
              ((Synth.synthesize g resolver task_desc dataset_name size labels
                relations).train_cases.map fun c => c.case_id)
              ((Synth.synthesize g resolver task_desc dataset_name size labels
                relations).val_cases.map fun c => c.case_id) ∧
            List.Disjoint
                ((Synth.synthesize g resolver task_desc dataset_name size labels
                  relations).train_cases.map fun c => c.case_id)
                ((Synth.synthesize g resolver task_desc dataset_name size labels
                  relations).test_cases.map fun c => c.case_id) ∧
              List.Disjoint
                ((Synth.synthesize g resolver task_desc dataset_name size labels
                  relations).val_cases.map fun c => c.case_id)
                ((Synth.synthesize g resolver task_desc dataset_name size labels
                  relations).test_cases.map fun c => c.case_id)) := by
  have hmain :
      (let d := Synth.synthesize g resolver task_desc dataset_name size labels relations
       d.cases.length =
           min (Synth.bounded_size size)
             (Synth.questionPool g task_desc size labels relations).2.length ∧
         d.cases.length ≤ 30 ∧
         (3 ≤ d.cases.length → d.train_cases ≠ [] ∧ d.val_cases ≠ [] ∧ d.test_cases ≠ []) ∧
         (d.cases.length ≠ 1 → d.cases.length ≠ 4 →
           d.train_cases.length + d.val_cases.length + d.test_cases.length = d.cases.length ∧
             List.Disjoint (d.train_cases.map fun c => c.case_id)
                 (d.val_cases.map fun c => c.case_id) ∧
               List.Disjoint (d.train_cases.map fun c => c.case_id)
                 (d.test_cases.map fun c => c.case_id) ∧
                 List.Disjoint (d.val_cases.map fun c => c.case_id)
                   (d.test_cases.map fun c => c.case_id))) := by
    intro d
    have hcaseseq : d.cases =
        Synth.buildCases dataset_name resolver (Synth.infer_intents task_desc) 0
          ((Synth.questionPool g task_desc size labels relations).2.take
            (Synth.bounded_size size)) := rfl
    have hlen : d.cases.length =
        min (Synth.bounded_size size)
          (Synth.questionPool g task_desc size labels relations).2.length := by
      rw [hcaseseq, Synth.buildCases_length, List.length_take]
    have hb30 : Synth.bounded_size size ≤ 30 := by
      simp only [Synth.bounded_size]
      omega
    have h30 : d.cases.length ≤ 30 := by
      rw [hlen]
      omega
    have hnd : (d.cases.map (fun c => c.case_id)).Nodup := by
      rw [hcaseseq]
      apply Synth.synth_ids_nodup
      rw [List.length_take]
      omega
    have htrain : d.train_cases =
        (Synth.sliceAndRebalance (Synth.shuffleGo g d.cases.length
          (Synth.questionPool g task_desc size labels relations).1 d.cases)).1 := rfl
    have hval : d.val_cases =
        (Synth.sliceAndRebalance (Synth.shuffleGo g d.cases.length
          (Synth.questionPool g task_desc size labels relations).1 d.cases)).2.1 := rfl
    have htest : d.test_cases =
        (Synth.sliceAndRebalance (Synth.shuffleGo g d.cases.length
          (Synth.questionPool g task_desc size labels relations).1 d.cases)).2.2 := rfl
    set sh := Synth.shuffleGo g d.cases.length
        (Synth.questionPool g task_desc size labels relations).1 d.cases with hsh
    rw [htrain, hval, htest]
    have hperm : List.Perm sh d.cases := by
      rw [hsh]
      exact Synth.shuffleGo_perm g _ _ _
    have hshlen : sh.length = d.cases.length := hperm.length_eq
    have hshnd : (sh.map (fun c => c.case_id)).Nodup :=
      ((hperm.map (fun c => c.case_id)).nodup_iff).mpr hnd
    have hparts := Synth.sliceAndRebalance_parts sh hshnd
    refine ⟨hlen, h30, fun h3 => hparts.1 (by omega), fun h1 h4 => ?_⟩
    obtain ⟨hsum, d1, d2, d3⟩ := hparts.2 (by omega) (by omega)
    exact ⟨hsum.trans hshlen, d1, d2, d3⟩
  exact hmain

/-- C1 counterexample: for the task `"ingest data into the graph"`
(single inferred intent IMPORT) with a single schema label and
relation, the rendered questions take only two distinct values and the
hard negatives two more, so after deduplication the dataset has 4
cases, below the claimed lower bound of 6; moreover at 4 cases the val
rebalance branch copies `shuffled[1]` (id `demo-1`), which stays in the
train split, so `|train|+|val|+|test| = 5 ≠ 4 = |cases|` and the splits
are not disjoint.  The choice stream alternates the two templates
(three positions are consumed per rendered question). -/
theorem dataset_synthesis_counterexample :
    (Synth.synthesize (fun p => p / 3 % 2) (fun _ => "UNKNOWN") "ingest data into the graph"
        "demo" 10 ["Node"] ["RELATED_TO"]).cases.length = 4 ∧
      (Synth.synthesize (fun p => p / 3 % 2) (fun _ => "UNKNOWN") "ingest data into the graph"
          "demo" 10 ["Node"] ["RELATED_TO"]).train_cases.map (fun c => c.case_id) =
        ["demo-2", "demo-1"] ∧
      (Synth.synthesize (fun p => p / 3 % 2) (fun _ => "UNKNOWN") "ingest data into the graph"
          "demo" 10 ["Node"] ["RELATED_TO"]).val_cases.map (fun c => c.case_id) =
        ["demo-1"] ∧
      (Synth.synthesize (fun p => p / 3 % 2) (fun _ => "UNKNOWN") "ingest data into the graph"
          "demo" 10 ["Node"] ["RELATED_TO"]).test_cases.map (fun c => c.case_id) =
        ["demo-3", "demo-4"] := by
  decide

/-- C1 witness: a concrete run (task inferring QUERY, two labels, one
relation, size 6) in which the amended theorem applies with every
hypothesis discharged: 6 cases, all three splits non-empty and summing
to 6. -/
theorem dataset_synthesis_amended_spec_witness :
    (["A", "B"] : List String) ≠ [] ∧ (["R"] : List String) ≠ [] ∧
      3 ≤ (Synth.synthesize (fun p => p) (fun _ => "UNKNOWN") "query the graph" "ds" 6
          ["A", "B"] ["R"]).cases.length ∧
      (Synth.synthesize (fun p => p) (fun _ => "UNKNOWN") "query the graph" "ds" 6
          ["A", "B"] ["R"]).train_cases ≠ [] ∧
      (Synth.synthesize (fun p => p) (fun _ => "UNKNOWN") "query the graph" "ds" 6
          ["A", "B"] ["R"]).val_cases ≠ [] ∧
      (Synth.synthesize (fun p => p) (fun _ => "UNKNOWN") "query the graph" "ds" 6
          ["A", "B"] ["R"]).test_cases ≠ [] ∧
      (Synth.synthesize (fun p => p) (fun _ => "UNKNOWN") "query the graph" "ds" 6
            ["A", "B"] ["R"]).train_cases.length +
          (Synth.synthesize (fun p => p) (fun _ => "UNKNOWN") "query the graph" "ds" 6
            ["A", "B"] ["R"]).val_cases.length +
          (Synth.synthesize (fun p => p) (fun _ => "UNKNOWN") "query the graph" "ds" 6
            ["A", "B"] ["R"]).test_cases.length =
        (Synth.synthesize (fun p => p) (fun _ => "UNKNOWN") "query the graph" "ds" 6
          ["A", "B"] ["R"]).cases.length := by
  have h := dataset_synthesis_amended_spec (fun p => p) (fun _ => "UNKNOWN")
    "query the graph" "ds" 6 ["A", "B"] ["R"] (by decide) (by decide)
  refine ⟨by decide, by decide, by decide, ?_, ?_, ?_, ?_⟩
  · exact (h.2.2.1 (by decide)).1
  · exact (h.2.2.1 (by decide)).2.1
  · exact (h.2.2.1 (by decide)).2.2
  · exact (h.2.2.2 (by decide) (by decide)).1

end GraphAgent

